import Mathlib

/-
  Verification of the CS140 project-4 filesystem core (filesys/inode.c,
  filesys/cache.c, filesys/directory.c, filesys/free-map.c).

  The embedding is shallow: the buffer cache is a coherent write-back layer,
  so the byte contents visible through cache_sector_read / cache_sector_write
  are modelled as a single byte store indexed by (sector, byte offset).
  Machine integers are modelled as Nat; the only place 32-bit wraparound
  matters is the (block_sector_t) -1 sentinel of byte_to_sector, modelled
  explicitly as UINT32_MAX.  off_t offsets and sizes are modelled as Nat
  (the non-negative range exercised by the filesystem layer); the one place
  the C code relies on a signed subtraction (inode_left in inode_read_at)
  is modelled with Int.
-/

/-- BLOCK_SECTOR_SIZE from devices/block.h: 512 bytes per sector. -/
def BLOCK_SECTOR_SIZE : Nat := 512

/-- SID_INDEX from inode.c: first single-indirect slot of the block array. -/
def SID_INDEX : Nat := 5

/-- DID_INDEX from inode.c: the doubly-indirect slot of the block array. -/
def DID_INDEX : Nat := 7

/-- MAX_INDEX from inode.c: number of entries of the block array. -/
def MAX_INDEX : Nat := 8

/-- DIRECT_LIMIT from inode.c. -/
def DIRECT_LIMIT : Nat := SID_INDEX

/-- NUM_PER_SECTOR from inode.c: sector pointers per index sector
    (BLOCK_SECTOR_SIZE / sizeof (unsigned) = 128). -/
def NUM_PER_SECTOR : Nat := BLOCK_SECTOR_SIZE / 4

/-- SID_LIMIT from inode.c: first sector index past the single-indirect
    range (5 + 2*128 = 261). -/
def SID_LIMIT : Nat := DIRECT_LIMIT + (DID_INDEX - SID_INDEX) * NUM_PER_SECTOR

/-- DID_LIMIT from inode.c: first sector index past the doubly-indirect
    range (261 + 128*128 = 16645); the maximum file size in sectors. -/
def DID_LIMIT : Nat := SID_LIMIT + (MAX_INDEX - DID_INDEX) *
                   NUM_PER_SECTOR * NUM_PER_SECTOR

/-- INODE_TABLE_SECTORS from filesys.h. -/
def INODE_TABLE_SECTORS : Nat := 100

/-- sizeof (struct inode_disk): bool (1 byte + 3 padding) + off_t length (4)
    + unsigned arr[8] (32) = 40 bytes on the i386 target. -/
def SIZEOF_INODE_DISK : Nat := 40

/-- INODES_PER_SECTOR from inode.c (512 / 40 = 12). -/
def INODES_PER_SECTOR : Nat := BLOCK_SECTOR_SIZE / SIZEOF_INODE_DISK

/-- The value of ((block_sector_t) -1), the failure sentinel returned by
    byte_to_sector. -/
def UINT32_MAX : Nat := 2 ^ 32 - 1

/-- NAME_MAX from directory.h. -/
def NAME_MAX : Nat := 14

/-- ROOT_DIR_INUMBER from filesys.h. -/
def ROOT_DIR_INUMBER : Nat := 0

/-- NUM_CACHE_SECTORS from cache.c. -/
def NUM_CACHE_SECTORS : Nat := 64

/-- Pointwise update of a function, used for the in-memory block array and
    for the cache slot array. -/
def updFn {α : Type} (f : Nat → α) (i : Nat) (v : α) : Nat → α :=
  fun j => if j = i then v else f j

/-- Bytes of the store read back as a list:
    memcpy (buffer, &ce->data[offset], size) direction. -/
def readBytes (m : Nat → Nat → Nat) (s ofs n : Nat) : List Nat :=
  (List.range n).map (fun i => m s (ofs + i))

/-- Overwrite bytes [ofs, ofs + bs.length) of sector s:
    memcpy (&ce->data[offset], buffer, size) direction. -/
def writeBytes (m : Nat → Nat → Nat) (s ofs : Nat) (bs : List Nat) :
    Nat → Nat → Nat :=
  fun s2 o2 =>
    if s2 = s ∧ ofs ≤ o2 ∧ o2 < ofs + bs.length then bs.getD (o2 - ofs) 0
    else m s2 o2

/-- memset (&ce->data[0], 0, BLOCK_SECTOR_SIZE) of one sector. -/
def zeroSector (m : Nat → Nat → Nat) (s : Nat) : Nat → Nat → Nat :=
  fun s2 o2 => if s2 = s then 0 else m s2 o2

/-- Little-endian byte encoding of a 32-bit value (the i386 layout used
    when an unsigned sector number is stored in an index sector). -/
def le4 (v : Nat) : List Nat :=
  [v % 256, v / 256 % 256, v / 256 ^ 2 % 256, v / 256 ^ 3 % 256]

/-- Little-endian 32-bit load of cell IDX of sector S, as performed by
    cache_sector_read (from_sector, to_sector, sizeof (unsigned),
    index * sizeof (unsigned)). -/
def load4 (m : Nat → Nat → Nat) (s idx : Nat) : Nat :=
  m s (4 * idx) + 256 * (m s (4 * idx + 1) +
    256 * (m s (4 * idx + 2) + 256 * m s (4 * idx + 3)))

/-- An external cache extent (struct cache_entry_ext from cache.c); the
    payload pointer is owned by the free map, only the bookkeeping fields
    matter here. -/
structure ExtEntry where
  sector : Nat
  dirty : Bool
  num_sectors : Nat

/-- State shared by the buffer cache and the free map: the byte contents of
    each sector as visible through the cache, the free-map bitmap (true =
    in use), its bit count (block_size (fs_device)), and the external
    extent list (list_ext from cache.c). -/
structure FS where
  store : Nat → Nat → Nat
  freemap : Nat → Bool
  bitcnt : Nat
  ext : List ExtEntry

/-- cache_sector_read: pure byte extraction (the accessed/priority update
    has no effect on the stored bytes). -/
def cache_sector_read (fs : FS) (sector size offset : Nat) : List Nat :=
  readBytes fs.store sector offset size

/-- cache_sector_write: copies the buffer into the sector and marks it
    dirty (writeback is transparent in this model). -/
def cache_sector_write (fs : FS) (sector : Nat) (buf : List Nat)
    (offset : Nat) : FS :=
  { fs with store := writeBytes fs.store sector offset buf }

/-- cache_sector_add: materializes a zeroed dirty slot for a freshly
    allocated sector. -/
def cache_sector_add (fs : FS) (sector : Nat) : FS :=
  { fs with store := zeroSector fs.store sector }

/-- cache_sector_dirty_external from cache.c.  Note the C source reads
    `if (ce->sector = sector)`: an assignment, not a comparison, so every
    extent's sector field is overwritten with SECTOR and the dirty flag is
    set whenever SECTOR is nonzero. -/
def cache_sector_dirty_external (l : List ExtEntry) (sector : Nat) :
    List ExtEntry :=
  l.map (fun ce =>
    { ce with sector := sector,
              dirty := if sector = 0 then ce.dirty else true })

/-- Sectors a call to cache_flush writes back for the external extent list:
    each dirty extent's sector range. -/
def cache_flush_ext_writes (l : List ExtEntry) : List (Nat × Nat) :=
  (l.filter (fun ce => ce.dirty)).map (fun ce => (ce.sector, ce.num_sectors))

/-- Whether bits [st, st + cnt) of the bitmap all have value false. -/
def allFreeRange (b : Nat → Bool) (st cnt : Nat) : Bool :=
  (List.range cnt).all (fun j => !b (st + j))

/-- bitmap_scan (b, 0, cnt, false): lowest start index of CNT consecutive
    clear bits, none if there is no such group. -/
def bitmapScan (b : Nat → Bool) (bitcnt cnt : Nat) : Option Nat :=
  (List.range (bitcnt + 1 - cnt)).find? (fun st => allFreeRange b st cnt)

/-- bitmap_set_multiple (b, start, cnt, true). -/
def markRange (b : Nat → Bool) (start cnt : Nat) : Nat → Bool :=
  fun i => if start ≤ i ∧ i < start + cnt then true else b i

/-- bitmap_set_multiple (b, start, cnt, false). -/
def clearRange (b : Nat → Bool) (start cnt : Nat) : Nat → Bool :=
  fun i => if start ≤ i ∧ i < start + cnt then false else b i

/-- Number of clear (free) bits of the free map. -/
def freeBits (fs : FS) : Nat :=
  ((List.range fs.bitcnt).filter (fun i => !fs.freemap i)).length

/-- free_map_allocate from free-map.c: bitmap_scan_and_flip over the pinned
    bitmap; on success the external extent registered at
    INODE_TABLE_SECTORS is marked dirty. -/
def free_map_allocate (fs : FS) (cnt : Nat) : Option (Nat × FS) :=
  match bitmapScan fs.freemap fs.bitcnt cnt with
  | none => none
  | some sector =>
      some (sector,
        { fs with freemap := markRange fs.freemap sector cnt,
                  ext := cache_sector_dirty_external fs.ext
                           INODE_TABLE_SECTORS })

/-- free_map_release from free-map.c (the ASSERT (bitmap_all ...) that
    guards it appears as a hypothesis of the theorems about it). -/
def free_map_release (fs : FS) (sector cnt : Nat) : FS :=
  { fs with freemap := clearRange fs.freemap sector cnt,
            ext := cache_sector_dirty_external fs.ext INODE_TABLE_SECTORS }

/-- struct inode_disk from inode.c. -/
structure InodeData where
  in_use : Bool
  length : Nat
  arr : Nat → Nat

/-- The fields of the in-memory struct inode that the byte-level claims
    exercise (list membership, locks and the removed flag belong to the
    directory-level model). -/
structure Inode where
  inumber : Nat
  deny_write_cnt : Nat
  data : InodeData

/-- Byte image of a struct inode_disk as written to the inode table
    (i386 little-endian layout; the three padding bytes after the bool are
    written as 0). -/
def serializeInodeDisk (d : InodeData) : List Nat :=
  [if d.in_use then 1 else 0, 0, 0, 0] ++ le4 d.length ++
    ((List.range 8).map (fun i => le4 (d.arr i))).flatten

/-- inode_write_to_table from inode.c. -/
def inode_write_to_table (fs : FS) (inumber : Nat) (d : InodeData) : FS :=
  cache_sector_write fs (inumber / INODES_PER_SECTOR) (serializeInodeDisk d)
    ((inumber % INODES_PER_SECTOR) * SIZEOF_INODE_DISK)

/-- sector_fixup from inode.c: dereference a pointer, allocating (and
    zero-filling through cache_sector_add) a sector when it is 0.  Returns
    none exactly when free_map_allocate fails. -/
def sector_fixup (fs : FS) (p : Nat) : Option (Nat × FS) :=
  if p = 0 then
    match free_map_allocate fs 1 with
    | none => none
    | some (s, fs1) => some (s, cache_sector_add fs1 s)
  else some (p, fs)

/-- sector_fixup_disk from inode.c: read the pointer at cell INDEX of
    FROM_SECTOR, fix it up, and write it back when it was previously 0. -/
def sector_fixup_disk (fs : FS) (from_sector index : Nat) :
    Option (Nat × FS) :=
  let to0 := load4 fs.store from_sector index
  match sector_fixup fs to0 with
  | none => none
  | some (t, fs1) =>
      some (t, if to0 = 0
               then cache_sector_write fs1 from_sector (le4 t) (4 * index)
               else fs1)

/-- The `for (i = 0; i < depth; i++)` loop of sector_fixup_depth, iterating
    over the remaining levels of indirection; on failure it reports none
    together with the state reached so far (the C code returns -1 and keeps
    all partial allocations). -/
def fixup_chain (fs : FS) (sector_to idx depth : Nat) :
    List Nat → Option Nat × FS
  | [] => (some sector_to, fs)
  | i :: rest =>
      match sector_fixup_disk fs sector_to
        (idx / NUM_PER_SECTOR ^ (depth - 1 - i) % NUM_PER_SECTOR) with
      | none => (none, fs)
      | some (t, fs1) => fixup_chain fs1 t idx depth rest

/-- Overwrite of the block array at slot i (inode->data.arr[i] = v). -/
def setArr (ino : Inode) (i v : Nat) : Inode :=
  { ino with data := { ino.data with arr := updFn ino.data.arr i v } }

/-- sector_fixup_depth from inode.c.  Returns UINT32_MAX (the
    (block_sector_t) -1 of the C source) when an allocation fails; partial
    state changes made before the failure persist, and the inode is written
    back to the table only on success. -/
def sector_fixup_depth (fs : FS) (ino : Inode)
    (start_index prev_limit index depth : Nat) : Nat × FS × Inode :=
  let idx := index - prev_limit
  let arr_index := idx / NUM_PER_SECTOR ^ depth + start_index
  match sector_fixup fs (ino.data.arr arr_index) with
  | none => (UINT32_MAX, fs, ino)
  | some (s, fs1) =>
      let ino1 := setArr ino arr_index s
      match fixup_chain fs1 s idx depth (List.range depth) with
      | (none, fs2) => (UINT32_MAX, fs2, ino1)
      | (some sector_to, fs2) =>
          (sector_to, inode_write_to_table fs2 ino1.inumber ino1.data, ino1)

/-- byte_to_sector from inode.c: maps a byte offset to its backing sector,
    allocating data and index sectors lazily; UINT32_MAX past DID_LIMIT. -/
def byte_to_sector (fs : FS) (ino : Inode) (pos : Nat) : Nat × FS × Inode :=
  let index := pos / BLOCK_SECTOR_SIZE
  if index < DIRECT_LIMIT then
    sector_fixup_depth fs ino 0 0 index 0
  else if index < SID_LIMIT then
    sector_fixup_depth fs ino SID_INDEX DIRECT_LIMIT index 1
  else if index < DID_LIMIT then
    sector_fixup_depth fs ino DID_INDEX SID_LIMIT index 2
  else (UINT32_MAX, fs, ino)

/-- The while loop of inode_write_at.  The fuel argument only bounds the
    number of iterations: every iteration writes chunk_size ≥ 1 bytes, so
    the size + 1 supplied by inode_write_at can never run out. -/
def inode_write_at_loop : Nat → FS → Inode → List Nat → Nat → Nat → Nat →
    Nat × FS × Inode
  | 0, fs, ino, _, _, _, bytes_written => (bytes_written, fs, ino)
  | fuel + 1, fs, ino, buffer, size, offset, bytes_written =>
    if size = 0 then (bytes_written, fs, ino)
    else
      let sector_ofs := offset % BLOCK_SECTOR_SIZE
      let sector_left := BLOCK_SECTOR_SIZE - sector_ofs
      let chunk_size := min size sector_left
      let r := byte_to_sector fs ino offset
      let fs1 := cache_sector_write r.2.1 r.1
                   ((buffer.drop bytes_written).take chunk_size) sector_ofs
      let ino1 := r.2.2
      if offset + chunk_size > ino1.data.length then
        let d2 := { ino1.data with length := offset + chunk_size }
        inode_write_at_loop fuel (inode_write_to_table fs1 ino1.inumber d2)
          { ino1 with data := d2 } buffer (size - chunk_size)
          (offset + chunk_size) (bytes_written + chunk_size)
      else
        inode_write_at_loop fuel fs1 ino1 buffer (size - chunk_size)
          (offset + chunk_size) (bytes_written + chunk_size)

/-- inode_write_at from inode.c. -/
def inode_write_at (fs : FS) (ino : Inode) (buffer : List Nat)
    (size offset : Nat) : Nat × FS × Inode :=
  if ino.deny_write_cnt ≠ 0 then (0, fs, ino)
  else inode_write_at_loop (size + 1) fs ino buffer size offset 0

/-- The while loop of inode_read_at.  inode_left is the signed off_t
    subtraction of the C source. -/
def inode_read_at_loop : Nat → FS → Inode → Nat → Nat → List Nat →
    List Nat × FS × Inode
  | 0, fs, ino, _, _, acc => (acc, fs, ino)
  | fuel + 1, fs, ino, size, offset, acc =>
    if size = 0 then (acc, fs, ino)
    else
      let sector_ofs := offset % BLOCK_SECTOR_SIZE
      let inode_left : Int := (ino.data.length : Int) - (offset : Int)
      let sector_left : Int := (BLOCK_SECTOR_SIZE : Int) - (sector_ofs : Int)
      let min_left : Int := if inode_left < sector_left then inode_left
                            else sector_left
      let chunk_size : Int := if (size : Int) < min_left then (size : Int)
                              else min_left
      if chunk_size ≤ 0 then (acc, fs, ino)
      else
        let c := chunk_size.toNat
        let r := byte_to_sector fs ino offset
        let bytes := cache_sector_read r.2.1 r.1 c sector_ofs
        inode_read_at_loop fuel r.2.1 r.2.2 (size - c) (offset + c)
          (acc ++ bytes)

/-- inode_read_at from inode.c, including the read-ahead tail, which calls
    byte_to_sector (and hence may allocate) on the offset at the start of
    the next block when that offset is below the length;
    cache_sector_fetch_async itself does not change any sector's bytes. -/
def inode_read_at (fs : FS) (ino : Inode) (size offset : Nat) :
    Nat × List Nat × FS × Inode :=
  let r := inode_read_at_loop (size + 1) fs ino size offset []
  let bytes_read := r.1.length
  let offset2 := offset + bytes_read
  let aligned := offset2 - offset2 % BLOCK_SECTOR_SIZE
  if aligned < r.2.2.data.length then
    let ra := byte_to_sector r.2.1 r.2.2 aligned
    (bytes_read, r.1, ra.2.1, ra.2.2)
  else
    (bytes_read, r.1, r.2.1, r.2.2)

/-
  Directory layer (filesys/directory.c), modelled at the granularity of
  struct dir_entry records: the directory's inode content is the array of
  fixed-size entries that directory.c reads and writes with
  inode_read_at/inode_write_at at offsets that are always multiples of
  sizeof (struct dir_entry).  A read at entry index i returns the full
  entry exactly when i is below the number of entries (inode_read_at
  short-reads only at end of file, as the comment in dir_add notes), and
  the entry-sized writes that directory.c performs always succeed at this
  granularity.
-/

/-- struct dir_entry from directory.c. -/
structure DirEntry where
  inumber : Nat
  name : List Char
  in_use : Bool
deriving DecidableEq

/-- The in-memory view of one inode as the directory layer sees it:
    the is_dir bit (modelled from the spec: `is_dir` lives in the on-disk
    inode and inode_is_dir reads it; the inode.c under src predates that
    field), the removed flag of the shared in-memory handle
    (inode_is_removed), and the entry-array content. -/
structure MInode where
  is_dir : Bool
  removed : Bool
  entries : List DirEntry

/-- The open-inode table view: every inumber denotes an inode slot
    (the on-disk table is total; unused slots are blank records). -/
structure DStore where
  inodes : Nat → MInode

/-- Replace the entry array of inode i. -/
def setEntries (st : DStore) (i : Nat) (es : List DirEntry) : DStore :=
  { inodes := updFn st.inodes i { st.inodes i with entries := es } }

/-- inode_remove: marks inode i to be deleted on last close. -/
def inode_remove (st : DStore) (i : Nat) : DStore :=
  { inodes := updFn st.inodes i { st.inodes i with removed := true } }

/-- The static lookup () helper of directory.c: offset (here: index) and
    entry of the first in-use entry whose name matches exactly. -/
def lookupEntry (es : List DirEntry) (name : List Char) :
    Option (Nat × DirEntry) :=
  es.enum.find? (fun p => p.2.in_use && decide (p.2.name = name))

/-- The slot-search loop of dir_add: index of the first free slot, or the
    end of file when every slot is in use. -/
def firstFreeSlot (es : List DirEntry) : Nat :=
  match es.enum.find? (fun p => !p.2.in_use) with
  | some p => p.1
  | none => es.length

/-- Writing one dir_entry at slot idx (inode_write_at at offset
    idx * sizeof (struct dir_entry)): in-place update below the end of
    file, append exactly at it. -/
def writeEntrySlot (st : DStore) (d idx : Nat) (e : DirEntry) : DStore :=
  let es := (st.inodes d).entries
  if idx < es.length then setEntries st d (es.set idx e)
  else setEntries st d (es ++ [e])

/-- dir_is_removed from directory.c (via inode_is_removed, modelled from
    the spec: returns the removed flag of the directory's inode). -/
def dir_is_removed (st : DStore) (d : Nat) : Bool :=
  (st.inodes d).removed

/-- dir_is_empty from directory.c: no in-use entry other than "." and
    "..". -/
def dir_is_empty (es : List DirEntry) : Bool :=
  es.all (fun e => !e.in_use || decide (e.name = ['.']) ||
                   decide (e.name = ['.', '.']))

/-- dir_lookup from directory.c: fails on a removed directory, otherwise
    returns the inumber of the matching entry (inode_open of a live
    inumber succeeds). -/
def dir_lookup (st : DStore) (d : Nat) (name : List Char) : Option Nat :=
  if dir_is_removed st d then none
  else (lookupEntry (st.inodes d).entries name).map (fun p => p.2.inumber)

/-- dir_add from directory.c.  The name validation of the source is
    only `*name == '\0' || strlen (name) > NAME_MAX`; there is no check
    for '/' characters.  Returns the C function's success flag together
    with the updated store. -/
def dir_add (st : DStore) (d : Nat) (name : List Char) (inumber : Nat) :
    Bool × DStore :=
  if name.length = 0 ∨ name.length > NAME_MAX then (false, st)
  else if dir_is_removed st d then (false, st)
  else if (lookupEntry (st.inodes d).entries name).isSome then (false, st)
  else
    let idx := firstFreeSlot (st.inodes d).entries
    (true, writeEntrySlot st d idx
             { inumber := inumber, name := name, in_use := true })

/-- dir_remove from directory.c.  Note that, unlike dir_lookup and
    dir_add, it never consults dir_is_removed: it goes straight to the
    static lookup () helper. -/
def dir_remove (st : DStore) (d : Nat) (name : List Char) : Bool × DStore :=
  match lookupEntry (st.inodes d).entries name with
  | none => (false, st)
  | some (idx, e) =>
      let target := st.inodes e.inumber
      if target.is_dir && !dir_is_empty target.entries then (false, st)
      else
        let st1 := setEntries st d
          ((st.inodes d).entries.set idx { e with in_use := false })
        (true, inode_remove st1 e.inumber)

/-- The suffix of the name after its last '/', when the name contains one
    (strrchr (name, '/') + 1 of dir_file). -/
def afterLastSlash (s : List Char) : Option (List Char) :=
  if '/' ∈ s then some ((s.reverse.takeWhile (fun ch => !(ch = '/'))).reverse)
  else none

/-- dir_file from directory.c: the final path component, or none when the
    component after the last '/' is empty or longer than NAME_MAX.  A name
    without any '/' is returned as a whole, without a length check. -/
def dir_file (name : List Char) : Option (List Char) :=
  match afterLastSlash name with
  | none => some name
  | some suffix =>
      if suffix.length = 0 ∨ suffix.length > NAME_MAX then none
      else some suffix

/-- strtok_r tokenization by '/': maximal non-empty runs between
    separator characters (empty tokens are skipped). -/
def tokenizeAux (cur : List Char) : List Char → List (List Char)
  | [] => if cur = [] then [] else [cur.reverse]
  | c :: rest =>
      if c = '/' then
        if cur = [] then tokenizeAux [] rest
        else cur.reverse :: tokenizeAux [] rest
      else tokenizeAux (c :: cur) rest

/-- Tokenization entry point for the dir-path walk of dir_fetch. -/
def tokenize (s : List Char) : List (List Char) :=
  tokenizeAux [] s

/-- The per-token descent loop of dir_fetch: dir_lookup each token and
    continue in the inode found (the source opens whatever inode came
    back, without an is_dir check). -/
def walkPath (st : DStore) (cur : Nat) : List (List Char) → Option Nat
  | [] => some cur
  | t :: ts =>
      match dir_lookup st cur t with
      | some inum => walkPath st inum ts
      | none => none

/-- dir_fetch from directory.c with a non-null FILE out-parameter (the
    form used by filesys_create/open/remove): returns the inumber of the
    resolved parent directory together with the final component placed at
    *file, or none on failure.  cwd is the caller thread's working
    directory. -/
def dir_fetch (st : DStore) (cwd : Nat) (name : List Char) :
    Option (Nat × List Char) :=
  if name.length = 0 then none
  else
    let isAbs := name.headD ' ' = '/'
    if isAbs ∧ name.length = 1 then some (ROOT_DIR_INUMBER, ['.'])
    else
      let startDir := if isAbs then ROOT_DIR_INUMBER else cwd
      match dir_file name with
      | none => none
      | some fcomp =>
          let dirPath := name.take (name.length - fcomp.length)
          match walkPath st startDir (tokenize dirPath) with
          | none => none
          | some d => some (d, fcomp)

/-
  Eviction (filesys/cache.c).  rw_lock_try_acquire_w together with the
  !rw_lock_held_by_current_thread_w guard is modelled as one boolean per
  slot: whether this thread may enter the slot's writer section without
  blocking.  The closed hash is modelled as the list of slot indices it
  contains; hash_first/hash_next yields its first element.
-/

/-- One cache slot as the eviction scan sees it: the accessed priority
    counter (uint8_t) and whether its writer lock can be taken
    non-blockingly. -/
structure CacheSlot where
  accessed : Nat
  lockable : Bool

/-- The cache state cache_evict operates on: the 64 slots, the closed
    index, and the clock hand (cur_index). -/
structure EvictState where
  slots : Nat → CacheSlot
  closed : List Nat
  hand : Nat

/-- The while (true) clock scan of cache_evict.  Fuel bounds the number of
    iterations (the C loop spins until it finds a victim); none means the
    fuel ran out before a victim was found. -/
def clockLoop (slots : Nat → CacheSlot) (hand : Nat) :
    Nat → Option (Nat × (Nat → CacheSlot) × Nat)
  | 0 => none
  | fuel + 1 =>
      let idx := (hand + 1) % NUM_CACHE_SECTORS
      let s := slots idx
      if s.lockable then
        if 0 < s.accessed then
          clockLoop (updFn slots idx { s with accessed := s.accessed - 1 })
            idx fuel
        else some (idx, slots, idx)
      else clockLoop slots idx fuel

/-- cache_evict from cache.c: an entry of the closed index when that is
    non-empty, otherwise the clock scan. -/
def cache_evict (st : EvictState) (fuel : Nat) : Option (Nat × EvictState) :=
  match st.closed with
  | e :: rest => some (e, { slots := st.slots, closed := rest,
                            hand := st.hand })
  | [] =>
      match clockLoop st.slots st.hand fuel with
      | none => none
      | some (idx, slots2, hand2) =>
          some (idx, { slots := slots2, closed := [], hand := hand2 })

/-
  Specification-side view of the multi-level index, used to state and prove
  the functional claims about inode_read_at / inode_write_at.  A TreeAddr
  names one pointer cell of the index structure; addrVal reads the sector
  number stored there (none when a pointer on the way is 0, the
  "unallocated" sentinel).  Well-formedness (WF) is the invariant the
  filesystem maintains: reserved sectors are marked used, every reachable
  sector is marked used and lies beyond the reserved region, and distinct
  pointer cells hold distinct sectors.
-/

/-- A 0 pointer means "not yet allocated". -/
def nz (v : Nat) : Option Nat :=
  if v = 0 then none else some v

/-- One pointer cell of an inode's index structure: a slot of the in-inode
    block array, a cell of a single-indirect index sector (slot 5 or 6), a
    cell of the doubly-indirect top sector (slot 7), or a cell of a
    doubly-indirect mid-level sector. -/
inductive TreeAddr where
  | top : Nat → TreeAddr
  | sid : Nat → Nat → TreeAddr
  | mid : Nat → TreeAddr
  | dleaf : Nat → Nat → TreeAddr
deriving DecidableEq

/-- The sector number stored at a pointer cell, following the index
    structure without allocating. -/
def addrVal (fs : FS) (ino : Inode) : TreeAddr → Option Nat
  | TreeAddr.top w =>
      if w < MAX_INDEX then nz (ino.data.arr w) else none
  | TreeAddr.sid w c =>
      if (w = 5 ∨ w = 6) ∧ c < NUM_PER_SECTOR then
        (nz (ino.data.arr w)).bind (fun t => nz (load4 fs.store t c))
      else none
  | TreeAddr.mid c =>
      if c < NUM_PER_SECTOR then
        (nz (ino.data.arr DID_INDEX)).bind
          (fun t => nz (load4 fs.store t c))
      else none
  | TreeAddr.dleaf c1 c2 =>
      if c1 < NUM_PER_SECTOR ∧ c2 < NUM_PER_SECTOR then
        (nz (ino.data.arr DID_INDEX)).bind (fun t =>
          (nz (load4 fs.store t c1)).bind
            (fun m => nz (load4 fs.store m c2)))
      else none

/-- The pointer cell that backs sector index k of a file (byte offsets
    [k*512, (k+1)*512)). -/
def leafAddr (k : Nat) : TreeAddr :=
  if k < DIRECT_LIMIT then TreeAddr.top k
  else if k < SID_LIMIT then
    TreeAddr.sid ((k - DIRECT_LIMIT) / NUM_PER_SECTOR + SID_INDEX)
                 ((k - DIRECT_LIMIT) % NUM_PER_SECTOR)
  else TreeAddr.dleaf ((k - SID_LIMIT) / NUM_PER_SECTOR)
                      ((k - SID_LIMIT) % NUM_PER_SECTOR)

/-- The data sector currently backing sector index k, none when a pointer
    on the path is still 0 or k is past the maximum file size. -/
def sectorOfIdx (fs : FS) (ino : Inode) (k : Nat) : Option Nat :=
  if k < DID_LIMIT then addrVal fs ino (leafAddr k) else none

/-- Well-formedness of a filesystem state with one open inode, with R the
    size of the reserved region (inode table plus free-map extent). -/
structure WF (fs : FS) (ino : Inode) (R : Nat) : Prop where
  r_ge : INODE_TABLE_SECTORS ≤ R
  reserved : ∀ i, i < R → fs.freemap i = true
  live : ∀ a v, addrVal fs ino a = some v → R ≤ v ∧ fs.freemap v = true
  inj : ∀ a b v, addrVal fs ino a = some v → addrVal fs ino b = some v →
        a = b
  bitcnt_le : fs.bitcnt ≤ 2 ^ 32
  inum_lt : ino.inumber < INODE_TABLE_SECTORS * INODES_PER_SECTOR

/-- The all-zero byte store. -/
def zeroStore : Nat → Nat → Nat := fun _ _ => 0

/-
  Concrete states used by the witnesses and counterexamples below.
-/

/-- A freshly formatted small disk: 120 sectors, the reserved region
    [0, 102) (inode table plus a one-sector free-map extent plus one used
    data sector) marked used, empty external list. -/
def fsC1 : FS :=
  { store := zeroStore, freemap := fun i => decide (i < 102),
    bitcnt := 120, ext := [] }

/-- An open empty file at inumber 1. -/
def inoC1 : Inode :=
  { inumber := 1, deny_write_cnt := 0,
    data := { in_use := true, length := 0, arr := fun _ => 0 } }

/-- State for the read-past-length witness. -/
def fsC7 : FS :=
  { store := zeroStore, freemap := fun i => decide (i < 102),
    bitcnt := 120, ext := [] }

/-- An open file of length 5 at inumber 1. -/
def inoC7 : Inode :=
  { inumber := 1, deny_write_cnt := 0,
    data := { in_use := true, length := 5, arr := fun _ => 0 } }

/-- State for the hole-read counterexample: a file of length 10 whose
    first block pointer is still 0 (a hole), with free sectors from 102. -/
def fsC3 : FS :=
  { store := zeroStore, freemap := fun i => decide (i < 102),
    bitcnt := 120, ext := [] }

/-- An open sparse file of length 10 at inumber 1, all pointers 0. -/
def inoC3 : Inode :=
  { inumber := 1, deny_write_cnt := 0,
    data := { in_use := true, length := 10, arr := fun _ => 0 } }

/-- An unused inode slot of the directory-level store. -/
def blankMInode : MInode :=
  { is_dir := false, removed := false, entries := [] }

/-- Directory store for the trailing-slash counterexample: the root
    contains a subdirectory "a" at inumber 1, so the directory prefix of
    the path "/a/" exists. -/
def stC4 : DStore :=
  { inodes := fun i =>
      if i = 0 then
        { is_dir := true, removed := false,
          entries := [{ inumber := 1, name := ['a'], in_use := true }] }
      else if i = 1 then { is_dir := true, removed := false, entries := [] }
      else blankMInode }

/-- Directory store for the name-validation counterexample: an empty,
    live root directory. -/
def stC5 : DStore :=
  { inodes := fun i =>
      if i = 0 then { is_dir := true, removed := false, entries := [] }
      else blankMInode }

/-- Directory store for the removed-directory witness: a removed root
    directory that still holds one in-use entry "f" naming the plain file
    at inumber 1. -/
def stC10 : DStore :=
  { inodes := fun i =>
      if i = 0 then
        { is_dir := true, removed := true,
          entries := [{ inumber := 1, name := ['f'], in_use := true }] }
      else if i = 1 then
        { is_dir := false, removed := false, entries := [] }
      else blankMInode }

/-- Free-map witness state: one registered external extent (the free map,
    two sectors at INODE_TABLE_SECTORS), not yet dirty. -/
def fsC9 : FS :=
  { store := zeroStore, freemap := fun i => decide (i < 102),
    bitcnt := 120,
    ext := [{ sector := INODE_TABLE_SECTORS, dirty := false,
              num_sectors := 2 }] }

/-- The state free_map_allocate (fsC9, 1) produces: bit 102 flipped and
    the extent marked dirty. -/
def fsC9p : FS :=
  { fsC9 with freemap := markRange fsC9.freemap 102 1,
              ext := cache_sector_dirty_external fsC9.ext
                       INODE_TABLE_SECTORS }

/-- Eviction witness state: closed index empty, slot 0 lockable with a
    drained accessed counter, every other slot unlockable. -/
def stC8 : EvictState :=
  { slots := fun j => if j = 0 then { accessed := 0, lockable := true }
                      else { accessed := 5, lockable := false },
    closed := [], hand := 0 }

/-- The state cache_evict (stC8, fuel 64) reaches when it selects slot 0. -/
def stC8p : EvictState :=
  { slots := stC8.slots, closed := [], hand := 0 }

/-- Eviction witness state with a non-empty closed index. -/
def stC8b : EvictState :=
  { slots := stC8.slots, closed := [7, 9], hand := 3 }

/-- Addresses whose value is a data (leaf) sector rather than an index
    sector: direct slots, single-indirect cells, doubly-indirect leaf
    cells. -/
def isLeafAddr : TreeAddr → Prop
  | TreeAddr.top w => w < DIRECT_LIMIT
  | TreeAddr.sid _ _ => True
  | TreeAddr.mid _ => False
  | TreeAddr.dleaf _ _ => True

/-- Everything one successful byte_to_sector call at sector index k
    guarantees: the result state is well formed, index k is now mapped to
    the returned sector, every other mapped index keeps its sector and its
    bytes, the inode fields other than the block array are untouched, at
    most three sectors were consumed from the free map, and a previously
    unmapped index gets a zero-filled backing sector. -/
def StepOK (fs : FS) (ino : Inode) (R k : Nat)
    (res : Nat × FS × Inode) : Prop :=
  WF res.2.1 res.2.2 R ∧
  sectorOfIdx res.2.1 res.2.2 k = some res.1 ∧
  (∀ j σ, j ≠ k → sectorOfIdx fs ino j = some σ →
     sectorOfIdx res.2.1 res.2.2 j = some σ) ∧
  (∀ j σ, j ≠ k → sectorOfIdx fs ino j = some σ →
     ∀ o, res.2.1.store σ o = fs.store σ o) ∧
  res.2.2.data.length = ino.data.length ∧
  res.2.2.inumber = ino.inumber ∧
  res.2.2.deny_write_cnt = ino.deny_write_cnt ∧
  res.2.1.bitcnt = fs.bitcnt ∧
  freeBits fs ≤ freeBits res.2.1 + 3 ∧
  (∀ i, fs.freemap i = true → res.2.1.freemap i = true) ∧
  (sectorOfIdx fs ino k = none → ∀ o, res.2.1.store res.1 o = 0)

/-- Postcondition of the while loop of inode_write_at, relating the loop
    result to the entry state: the return value counts every byte, the
    state stays well formed, the length covers the written window, sectors
    below the window keep their map entries and bytes, and each written
    byte is stored at its mapped sector. -/
def WritePost (fs : FS) (ino : Inode) (buffer : List Nat)
    (size offset bw R : Nat) (res : Nat × FS × Inode) : Prop :=
  res.1 = bw + size ∧
  WF res.2.1 res.2.2 R ∧
  res.2.2.inumber = ino.inumber ∧
  (size = 0 → res.2.1 = fs ∧ res.2.2 = ino) ∧
  (0 < size → res.2.2.data.length = max ino.data.length (offset + size)) ∧
  (∀ j σ, j < offset / BLOCK_SECTOR_SIZE → sectorOfIdx fs ino j = some σ →
    sectorOfIdx res.2.1 res.2.2 j = some σ ∧
    ∀ o, res.2.1.store σ o = fs.store σ o) ∧
  (∀ p, p < size → ∃ σp,
    sectorOfIdx res.2.1 res.2.2 ((offset + p) / BLOCK_SECTOR_SIZE)
      = some σp ∧
    res.2.1.store σp ((offset + p) % BLOCK_SECTOR_SIZE)
      = buffer.getD (bw + p) 0)

/-- A blank filesystem for the round-trip witnesses: zeroed store, the
    first 100 sectors (inode table and free-map extent) reserved, 200
    total bits, no external extents. -/
def fsBlank : FS :=
  { store := zeroStore, freemap := fun i => decide (i < 100),
    bitcnt := 200, ext := [] }

/-- An inode whose block array is all holes. -/
def inoBlank (len : Nat) : Inode :=
  { inumber := 0, deny_write_cnt := 0,
    data := { in_use := true, length := len, arr := fun _ => 0 } }

/- ===== end of definitions ===== -/

/-
  ===== theorems =====
-/

/-- C1: the claim says a write at or past DID_LIMIT*SECTOR_SIZE fails and
    returns only the bytes written before that offset (0 for a write
    starting exactly there, leaving the file unchanged).  The code is
    buggy: inode_write_at never checks the (block_sector_t) -1 sentinel of
    byte_to_sector, so a 1-byte write at exactly DID_LIMIT*SECTOR_SIZE
    passes sector 4294967295 to cache_sector_write (an out-of-range device
    access), returns 1, and raises the length to DID_LIMIT*SECTOR_SIZE+1. -/
theorem inode_write_at_past_did_limit_bug :
    (inode_write_at fsC1 inoC1 [42] 1 (DID_LIMIT * BLOCK_SECTOR_SIZE)).1
        = 1 ∧
    (inode_write_at fsC1 inoC1 [42] 1
        (DID_LIMIT * BLOCK_SECTOR_SIZE)).2.2.data.length
      = DID_LIMIT * BLOCK_SECTOR_SIZE + 1 ∧
    (inode_write_at fsC1 inoC1 [42] 1
        (DID_LIMIT * BLOCK_SECTOR_SIZE)).2.1.store UINT32_MAX 0 = 42 :=
  ⟨rfl, rfl, rfl⟩

/-- The inode returned by byte_to_sector differs from the argument at most
    in the block array. -/
theorem byte_to_sector_shape (fs : FS) (ino : Inode) (pos : Nat) :
    ∃ f, (byte_to_sector fs ino pos).2.2 =
      { inumber := ino.inumber, deny_write_cnt := ino.deny_write_cnt,
        data := { in_use := ino.data.in_use, length := ino.data.length,
                  arr := f } } := by
  have hshape : ∀ a b c d, ∃ f, (sector_fixup_depth fs ino a b c d).2.2 =
      { inumber := ino.inumber, deny_write_cnt := ino.deny_write_cnt,
        data := { in_use := ino.data.in_use, length := ino.data.length,
                  arr := f } } := by
    intro a b c d
    unfold sector_fixup_depth
    cases hsf : sector_fixup fs
        (ino.data.arr ((c - b) / NUM_PER_SECTOR ^ d + a)) with
    | none => exact ⟨ino.data.arr, by simp [hsf]⟩
    | some p =>
        obtain ⟨s, fs1⟩ := p
        cases hch : fixup_chain fs1 s (c - b) d (List.range d) with
        | mk os fs2 =>
            cases os with
            | none =>
                exact ⟨updFn ino.data.arr ((c - b) / NUM_PER_SECTOR ^ d + a) s,
                  by simp [hsf, hch, setArr]⟩
            | some t =>
                exact ⟨updFn ino.data.arr ((c - b) / NUM_PER_SECTOR ^ d + a) s,
                  by simp [hsf, hch, setArr]⟩
  unfold byte_to_sector
  dsimp only
  split
  · exact hshape _ _ _ _
  · split
    · exact hshape _ _ _ _
    · split
      · exact hshape _ _ _ _
      · exact ⟨ino.data.arr, rfl⟩

/-- byte_to_sector never changes the in-memory file length. -/
theorem byte_to_sector_length (fs : FS) (ino : Inode) (pos : Nat) :
    (byte_to_sector fs ino pos).2.2.data.length = ino.data.length := by
  obtain ⟨f, hf⟩ := byte_to_sector_shape fs ino pos
  rw [hf]

/-- Each iteration of the inode_write_at loop only ever raises the
    length. -/
theorem inode_write_at_loop_length_mono :
    ∀ fuel fs ino buffer size offset bw, ino.data.length ≤
      (inode_write_at_loop fuel fs ino buffer size offset
        bw).2.2.data.length := by
  intro fuel
  induction fuel with
  | zero => intro fs ino buffer size offset bw; exact Nat.le_refl _
  | succ n ih =>
      intro fs ino buffer size offset bw
      rw [inode_write_at_loop]
      by_cases hs : size = 0
      · rw [if_pos hs]
      · rw [if_neg hs]
        dsimp only
        split
        next hgt =>
            refine le_trans ?_ (ih _ _ _ _ _ _)
            have hlen := byte_to_sector_length fs ino offset
            dsimp only
            omega
        next hgt =>
            refine le_trans ?_ (ih _ _ _ _ _ _)
            have hlen := byte_to_sector_length fs ino offset
            omega

/-- The inode_read_at loop never changes the in-memory file length. -/
theorem inode_read_at_loop_length_eq :
    ∀ fuel fs ino size offset acc,
      (inode_read_at_loop fuel fs ino size offset
        acc).2.2.data.length = ino.data.length := by
  intro fuel
  induction fuel with
  | zero => intro fs ino size offset acc; rfl
  | succ n ih =>
      intro fs ino size offset acc
      rw [inode_read_at_loop]
      by_cases hs : size = 0
      · rw [if_pos hs]
      · rw [if_neg hs]
        dsimp only
        split_ifs <;>
          first
            | rfl
            | (rw [ih]; exact byte_to_sector_length fs ino offset)

/-- C6: for every open inode, inode_write_at and inode_read_at leave the
    inode's length greater than or equal to its value before the call:
    length is monotonically non-decreasing across any sequence of reads
    and writes through one open inode. -/
theorem inode_length_monotone (fs : FS) (ino : Inode) (buffer : List Nat)
    (size offset : Nat) :
    ino.data.length ≤
      (inode_write_at fs ino buffer size offset).2.2.data.length ∧
    ino.data.length ≤
      (inode_read_at fs ino size offset).2.2.2.data.length := by
  constructor
  · unfold inode_write_at
    split
    · exact Nat.le_refl _
    · exact inode_write_at_loop_length_mono _ _ _ _ _ _ _
  · unfold inode_read_at
    dsimp only
    split
    · rw [byte_to_sector_length, inode_read_at_loop_length_eq]
    · rw [inode_read_at_loop_length_eq]

/-- C7: a read starting at or past the file length returns 0 bytes for
    every requested size, and hands back no sector contents at all. -/
theorem inode_read_at_past_length (fs : FS) (ino : Inode)
    (size offset : Nat) (h : ino.data.length ≤ offset) :
    (inode_read_at fs ino size offset).1 = 0 ∧
    (inode_read_at fs ino size offset).2.1 = [] := by
  have hloop : inode_read_at_loop (size + 1) fs ino size offset [] =
      ([], fs, ino) := by
    rw [inode_read_at_loop]
    by_cases hs : size = 0
    · rw [if_pos hs]
    · rw [if_neg hs]
      dsimp only
      simp only [BLOCK_SECTOR_SIZE] at h ⊢
      split_ifs <;> first | rfl | omega
  unfold inode_read_at
  dsimp only
  rw [hloop]
  split <;> exact ⟨rfl, rfl⟩

/-- Witness for C7 at a concrete state: a file of length 5 read at
    offset 7. -/
theorem inode_read_at_past_length_witness :
    inoC7.data.length ≤ 7 ∧
    ((inode_read_at fsC7 inoC7 3 7).1 = 0 ∧
     (inode_read_at fsC7 inoC7 3 7).2.1 = []) :=
  ⟨by decide, inode_read_at_past_length fsC7 inoC7 3 7 (by decide)⟩

/-- C4 counterexample: the directory prefix of "/a/" exists in stC4, yet
    dir_fetch rejects the path outright (dir_file refuses the empty final
    component), instead of succeeding with "." as the claim states. -/
theorem dir_fetch_trailing_slash_counterexample :
    dir_fetch stC4 0 ['/', 'a', '/'] = none := by decide

/-- C4 (amended): only the one-character path "/" resolves with final
    component "."; every longer path ending in '/' fails path resolution
    (dir_file returns null for the empty final component, so dir_fetch
    returns null before walking the prefix). -/
theorem dir_fetch_trailing_slash (st : DStore) (cwd : Nat)
    (ys : List Char) (hlen : 1 ≤ ys.length) :
    dir_fetch st cwd (ys ++ ['/']) = none ∧
    dir_fetch st cwd ['/'] = some (ROOT_DIR_INUMBER, ['.']) := by
  constructor
  · unfold dir_fetch
    have hne : ¬((ys ++ ['/']).length = 0) := by simp
    rw [if_neg hne]
    dsimp only
    have hfile : dir_file (ys ++ ['/']) = none := by
      unfold dir_file afterLastSlash
      have hmem : '/' ∈ ys ++ ['/'] := by simp
      rw [if_pos hmem]
      simp
    have hcond : ¬((ys ++ ['/']).headD ' ' = '/' ∧
        (ys ++ ['/']).length = 1) := by
      rintro ⟨-, hl⟩
      have hlen2 : (ys ++ ['/']).length = ys.length + 1 := by simp
      omega
    rw [if_neg hcond, hfile]
  · rfl

/-- Witness for the amended C4 at the concrete path "a/". -/
theorem dir_fetch_trailing_slash_witness :
    1 ≤ (['a'] : List Char).length ∧
    (dir_fetch stC4 0 (['a'] ++ ['/']) = none ∧
     dir_fetch stC4 0 ['/'] = some (ROOT_DIR_INUMBER, ['.'])) :=
  ⟨by decide, dir_fetch_trailing_slash stC4 0 ['a'] (by decide)⟩

/-- C5 counterexample: dir_add accepts the name "a/b" (length 3, containing
    '/') on a live directory and adds the entry, where the claim says every
    name containing '/' is rejected. -/
theorem dir_add_slash_name_counterexample :
    (dir_add stC5 0 ['a', '/', 'b'] 7).1 = true ∧
    ((dir_add stC5 0 ['a', '/', 'b'] 7).2.inodes 0).entries =
      [{ inumber := 7, name := ['a', '/', 'b'], in_use := true }] :=
  ⟨by decide, by decide⟩

/-- C5 (amended): dir_add rejects exactly the empty and the over-long
    names up front, returning false and leaving the store untouched; a '/'
    inside a name of valid length is not checked. -/
theorem dir_add_invalid_name (st : DStore) (d : Nat) (name : List Char)
    (inumber : Nat) (h : name.length = 0 ∨ name.length > NAME_MAX) :
    dir_add st d name inumber = (false, st) := by
  unfold dir_add
  rw [if_pos h]

/-- Witness for the amended C5 at the empty name. -/
theorem dir_add_invalid_name_witness :
    (([] : List Char).length = 0 ∨ ([] : List Char).length > NAME_MAX) ∧
    dir_add stC5 1 [] 3 = (false, stC5) :=
  ⟨by decide, dir_add_invalid_name stC5 1 [] 3 (by decide)⟩

/-- C10: dir_remove never consults the removed flag of the containing
    directory: on a removed directory handle it still succeeds whenever
    the name matches an in-use entry whose target is a file or an empty
    directory, while dir_lookup and dir_add on the same removed directory
    always fail. -/
theorem dir_remove_ignores_removed_flag (st : DStore) (d : Nat)
    (name : List Char) (idx : Nat) (e : DirEntry)
    (hrem : (st.inodes d).removed = true)
    (hfound : lookupEntry (st.inodes d).entries name = some (idx, e))
    (htarget : (st.inodes e.inumber).is_dir = true →
               dir_is_empty (st.inodes e.inumber).entries = true) :
    (dir_remove st d name).1 = true ∧
    (∀ nm, dir_lookup st d nm = none) ∧
    (∀ nm inum, (dir_add st d nm inum).1 = false) := by
  refine ⟨?_, ?_, ?_⟩
  · unfold dir_remove
    rw [hfound]
    have hc : ((st.inodes e.inumber).is_dir &&
        !dir_is_empty (st.inodes e.inumber).entries) = false := by
      cases hd : (st.inodes e.inumber).is_dir with
      | false => rfl
      | true => rw [htarget hd]; rfl
    simp [hc]
  · intro nm
    simp [dir_lookup, dir_is_removed, hrem]
  · intro nm inum
    simp only [dir_add, dir_is_removed, hrem]
    split_ifs <;> rfl

/-- Witness for C10: the removed root of stC10 still removes "f". -/
theorem dir_remove_ignores_removed_flag_witness :
    (stC10.inodes 0).removed = true ∧
    lookupEntry (stC10.inodes 0).entries ['f'] =
      some (0, { inumber := 1, name := ['f'], in_use := true }) ∧
    ((stC10.inodes 1).is_dir = true →
      dir_is_empty (stC10.inodes 1).entries = true) ∧
    ((dir_remove stC10 0 ['f']).1 = true ∧
     (∀ nm, dir_lookup stC10 0 nm = none) ∧
     (∀ nm inum, (dir_add stC10 0 nm inum).1 = false)) :=
  ⟨by decide, by decide, by decide,
   dir_remove_ignores_removed_flag stC10 0 ['f'] 0
     { inumber := 1, name := ['f'], in_use := true }
     (by decide) (by decide) (by decide)⟩

/-- Every extent of the list handed to cache_sector_dirty_external with
    the nonzero sector INODE_TABLE_SECTORS comes out dirty and registered
    at that sector. -/
theorem dirty_external_spec (l : List ExtEntry) (ce : ExtEntry)
    (h : ce ∈ cache_sector_dirty_external l INODE_TABLE_SECTORS) :
    ce.dirty = true ∧ ce.sector = INODE_TABLE_SECTORS := by
  unfold cache_sector_dirty_external at h
  obtain ⟨x, hx, rfl⟩ := List.mem_map.mp h
  refine ⟨?_, rfl⟩
  simp [INODE_TABLE_SECTORS]

/-- A dirty extent is among the ranges the flush loop writes back. -/
theorem mem_flush_of_dirty (l : List ExtEntry) (ce : ExtEntry)
    (h : ce ∈ l) (hd : ce.dirty = true) :
    (ce.sector, ce.num_sectors) ∈ cache_flush_ext_writes l := by
  unfold cache_flush_ext_writes
  exact List.mem_map_of_mem _ (List.mem_filter.mpr ⟨h, by simp [hd]⟩)

/-- C9: after every successful free_map_allocate and after every
    free_map_release (whose ASSERT that the released bits were set is the
    hypothesis of the second half), every registered external extent — in
    particular the free map's — is marked dirty, and its sector range is
    among the ranges the next cache_flush writes back. -/
theorem free_map_ops_dirty_external :
    (∀ fs cnt s fs2, free_map_allocate fs cnt = some (s, fs2) →
       ∀ ce ∈ fs2.ext, ce.dirty = true ∧ ce.sector = INODE_TABLE_SECTORS ∧
         (ce.sector, ce.num_sectors) ∈ cache_flush_ext_writes fs2.ext) ∧
    (∀ fs sector cnt,
       (∀ i, sector ≤ i → i < sector + cnt → fs.freemap i = true) →
       ∀ ce ∈ (free_map_release fs sector cnt).ext,
         ce.dirty = true ∧ ce.sector = INODE_TABLE_SECTORS ∧
         (ce.sector, ce.num_sectors) ∈
           cache_flush_ext_writes (free_map_release fs sector cnt).ext) := by
  constructor
  · intro fs cnt s fs2 halloc ce hce
    have hext : fs2.ext = cache_sector_dirty_external fs.ext
        INODE_TABLE_SECTORS := by
      unfold free_map_allocate at halloc
      cases hscan : bitmapScan fs.freemap fs.bitcnt cnt with
      | none => rw [hscan] at halloc; exact absurd halloc (by simp)
      | some sec =>
          rw [hscan] at halloc
          simp only [Option.some.injEq, Prod.mk.injEq] at halloc
          rw [← halloc.2]
    rw [hext] at hce
    obtain ⟨hd, hs⟩ := dirty_external_spec _ _ hce
    exact ⟨hd, hs, mem_flush_of_dirty _ _ (hext ▸ hce) hd⟩
  · intro fs sector cnt _ ce hce
    obtain ⟨hd, hs⟩ := dirty_external_spec _ _ hce
    exact ⟨hd, hs, mem_flush_of_dirty _ _ hce hd⟩

/-- Witness for C9: one registered free-map extent, allocation of one
    sector and release of sector 50. -/
theorem free_map_ops_dirty_external_witness :
    (free_map_allocate fsC9 1 = some (102, fsC9p) ∧
     ∀ ce ∈ fsC9p.ext, ce.dirty = true ∧ ce.sector = INODE_TABLE_SECTORS ∧
       (ce.sector, ce.num_sectors) ∈ cache_flush_ext_writes fsC9p.ext) ∧
    ((∀ i, 50 ≤ i → i < 50 + 1 → fsC9.freemap i = true) ∧
     ∀ ce ∈ (free_map_release fsC9 50 1).ext,
       ce.dirty = true ∧ ce.sector = INODE_TABLE_SECTORS ∧
       (ce.sector, ce.num_sectors) ∈
         cache_flush_ext_writes (free_map_release fsC9 50 1).ext) :=
  ⟨⟨rfl, free_map_ops_dirty_external.1 fsC9 1 102 fsC9p rfl⟩,
   ⟨by intro i h1 h2; have h3 : i = 50 := (by omega); subst h3; rfl,
    free_map_ops_dirty_external.2 fsC9 50 1
      (by intro i h1 h2; have h3 : i = 50 := (by omega); subst h3; rfl)⟩⟩

/-- The clock scan of cache_evict only returns a slot whose writer lock is
    free, whose accessed counter has reached 0, leaves unlockable slots
    untouched, and only ever decrements accessed counters. -/
theorem clockLoop_spec :
    ∀ fuel slots hand idx slots2 hand2,
      clockLoop slots hand fuel = some (idx, slots2, hand2) →
      (slots idx).lockable = true ∧ (slots2 idx).accessed = 0 ∧
      (slots2 idx).lockable = true ∧
      (∀ j, (slots j).lockable = false → slots2 j = slots j) ∧
      (∀ j, (slots2 j).accessed ≤ (slots j).accessed ∧
            (slots2 j).lockable = (slots j).lockable) := by
  intro fuel
  induction fuel with
  | zero => intro slots hand idx slots2 hand2 h; exact absurd h (by simp [clockLoop])
  | succ n ih =>
      intro slots hand idx slots2 hand2 h
      rw [clockLoop] at h
      by_cases hl : (slots ((hand + 1) % NUM_CACHE_SECTORS)).lockable = true
      · rw [if_pos hl] at h
        by_cases ha : 0 < (slots ((hand + 1) % NUM_CACHE_SECTORS)).accessed
        · rw [if_pos ha] at h
          obtain ⟨h1, h2, h3, h4, h5⟩ := ih _ _ _ _ _ h
          have hupd : ∀ j,
              (updFn slots ((hand + 1) % NUM_CACHE_SECTORS)
                { accessed := (slots ((hand + 1) % NUM_CACHE_SECTORS)).accessed - 1,
                  lockable := (slots ((hand + 1) % NUM_CACHE_SECTORS)).lockable } j).lockable
                = (slots j).lockable ∧
              (updFn slots ((hand + 1) % NUM_CACHE_SECTORS)
                { accessed := (slots ((hand + 1) % NUM_CACHE_SECTORS)).accessed - 1,
                  lockable := (slots ((hand + 1) % NUM_CACHE_SECTORS)).lockable } j).accessed
                ≤ (slots j).accessed := by
            intro j
            unfold updFn
            split
            next hj => subst hj; exact ⟨rfl, Nat.sub_le _ _⟩
            next hj => exact ⟨rfl, Nat.le_refl _⟩
          refine ⟨?_, h2, h3, ?_, ?_⟩
          · rw [← (hupd idx).1]; exact h1
          · intro j hj
            have hj2 := h4 j (by rw [(hupd j).1]; exact hj)
            rw [hj2]
            unfold updFn
            split
            next hje => subst hje; rw [hj] at hl; exact absurd hl (by simp)
            next hje => rfl
          · intro j
            refine ⟨le_trans (h5 j).1 (hupd j).2, ?_⟩
            rw [(h5 j).2, (hupd j).1]
        · rw [if_neg ha] at h
          simp only [Option.some.injEq, Prod.mk.injEq] at h
          obtain ⟨hidx, hslots, -⟩ := h
          subst hidx
          rw [← hslots]
          exact ⟨hl, by omega, hl, fun j _ => rfl, fun j => ⟨Nat.le_refl _, rfl⟩⟩
      · rw [if_neg hl] at h
        exact ih _ _ _ _ _ h

/-- C8: cache_evict takes an entry of the closed index when it is
    non-empty (slots untouched); otherwise the clock scan selects a slot
    whose writer lock is acquirable without blocking and whose accessed
    counter has been driven to 0, skipping unlockable slots (their state
    is unchanged) and only ever decrementing accessed counters. -/
theorem cache_evict_policy (st : EvictState) (fuel : Nat) :
    (∀ e rest, st.closed = e :: rest →
       cache_evict st fuel =
         some (e, { slots := st.slots, closed := rest,
                    hand := st.hand })) ∧
    (st.closed = [] → ∀ idx st2, cache_evict st fuel = some (idx, st2) →
       (st.slots idx).lockable = true ∧
       (st2.slots idx).accessed = 0 ∧
       (st2.slots idx).lockable = true ∧
       (∀ j, (st.slots j).lockable = false → st2.slots j = st.slots j) ∧
       (∀ j, (st2.slots j).accessed ≤ (st.slots j).accessed ∧
             (st2.slots j).lockable = (st.slots j).lockable)) := by
  constructor
  · intro e rest hc
    unfold cache_evict
    rw [hc]
  · intro hc idx st2 h
    unfold cache_evict at h
    rw [hc] at h
    cases hcl : clockLoop st.slots st.hand fuel with
    | none => rw [hcl] at h; exact absurd h (by simp)
    | some r =>
        obtain ⟨i2, slots2, hand2⟩ := r
        rw [hcl] at h
        simp only [Option.some.injEq, Prod.mk.injEq] at h
        obtain ⟨hidx, hst2⟩ := h
        subst hidx
        obtain ⟨h1, h2, h3, h4, h5⟩ := clockLoop_spec fuel _ _ _ _ _ hcl
        rw [← hst2]
        exact ⟨h1, h2, h3, h4, h5⟩

/-- Witness for C8: both branches at concrete states — stC8 drives the
    clock scan to slot 0, stC8b evicts the first closed entry. -/
theorem cache_evict_policy_witness :
    (stC8.closed = [] ∧ cache_evict stC8 64 = some (0, stC8p) ∧
     (stC8.slots 0).lockable = true ∧ (stC8p.slots 0).accessed = 0) ∧
    (stC8b.closed = 7 :: [9] ∧
     cache_evict stC8b 5 =
       some (7, { slots := stC8b.slots, closed := [9],
                  hand := stC8b.hand })) := by
  have h := (cache_evict_policy stC8 64).2 rfl 0 stC8p rfl
  exact ⟨⟨rfl, rfl, h.1, h.2.1⟩,
         ⟨rfl, (cache_evict_policy stC8b 5).1 7 [9] rfl⟩⟩

/-- C3 counterexample: reading one byte of the hole at offset 0 of the
    sparse file inoC3 (length 10, arr[0] = 0) does return the zero byte,
    but it allocates a backing sector on the way: the block pointer is 102
    afterwards, not 0 as the claim states. -/
theorem inode_read_at_hole_allocates_counterexample :
    (inode_read_at fsC3 inoC3 1 0).2.1 = [0] ∧
    (inode_read_at fsC3 inoC3 1 0).2.2.2.data.arr 0 = 102 :=
  ⟨by decide, by decide⟩

/-- Updating a function at a point with its current value is the
    identity. -/
theorem updFn_self {α : Type} (f : Nat → α) (i : Nat) :
    updFn f i (f i) = f := by
  funext j
  unfold updFn
  split
  next hj => rw [hj]
  next hj => rfl

/-- updFn reads back the written value. -/
theorem updFn_eq {α : Type} (f : Nat → α) (i : Nat) (v : α) :
    updFn f i v i = v := by simp [updFn]

/-- updFn leaves other points unchanged. -/
theorem updFn_ne {α : Type} (f : Nat → α) {i j : Nat} (v : α)
    (h : j ≠ i) : updFn f i v j = f j := by simp [updFn, h]

/-- Reading a byte outside the written range sees the old store. -/
theorem writeBytes_notin (m : Nat → Nat → Nat) (s ofs : Nat)
    (bs : List Nat) (s2 o2 : Nat)
    (h : ¬(s2 = s ∧ ofs ≤ o2 ∧ o2 < ofs + bs.length)) :
    writeBytes m s ofs bs s2 o2 = m s2 o2 := by
  unfold writeBytes
  rw [if_neg h]

/-- Reading a byte inside the written range sees the buffer. -/
theorem writeBytes_in (m : Nat → Nat → Nat) (s ofs : Nat) (bs : List Nat)
    (o2 : Nat) (h1 : ofs ≤ o2) (h2 : o2 < ofs + bs.length) :
    writeBytes m s ofs bs s o2 = bs.getD (o2 - ofs) 0 := by
  unfold writeBytes
  rw [if_pos ⟨rfl, h1, h2⟩]

/-- readBytes returns as many bytes as requested. -/
theorem readBytes_length (m : Nat → Nat → Nat) (s ofs n : Nat) :
    (readBytes m s ofs n).length = n := by simp [readBytes]

/-- load4 only looks at the four bytes of its cell. -/
theorem load4_congr_sector (m m2 : Nat → Nat → Nat) (s i : Nat)
    (h : ∀ o, m2 s o = m s o) : load4 m2 s i = load4 m s i := by
  unfold load4
  rw [h, h, h, h]

/-- A write to a different sector does not change any load4. -/
theorem load4_writeBytes_ne_sector (m : Nat → Nat → Nat) (s ofs : Nat)
    (bs : List Nat) (s2 i : Nat) (h : s2 ≠ s) :
    load4 (writeBytes m s ofs bs) s2 i = load4 m s2 i := by
  apply load4_congr_sector
  intro o
  exact writeBytes_notin m s ofs bs s2 o (by tauto)

/-- A 4-byte pointer write to one cell does not change another cell of the
    same sector. -/
theorem load4_store4_ne_cell (m : Nat → Nat → Nat) (s c : Nat) (v : Nat)
    (i : Nat) (h : i ≠ c) :
    load4 (writeBytes m s (4 * c) (le4 v)) s i = load4 m s i := by
  have hlen : (le4 v).length = 4 := rfl
  have hb : ∀ o, 4 * i ≤ o → o < 4 * i + 4 →
      writeBytes m s (4 * c) (le4 v) s o = m s o := by
    intro o ho1 ho2
    apply writeBytes_notin
    rw [hlen]
    rintro ⟨-, h1, h2⟩
    omega
  unfold load4
  rw [hb (4 * i) (by omega) (by omega), hb (4 * i + 1) (by omega) (by omega),
      hb (4 * i + 2) (by omega) (by omega),
      hb (4 * i + 3) (by omega) (by omega)]

/-- A 4-byte pointer write is read back exactly for values below 2^32. -/
theorem load4_store4_same (m : Nat → Nat → Nat) (s c v : Nat)
    (hv : v < 2 ^ 32) :
    load4 (writeBytes m s (4 * c) (le4 v)) s c = v := by
  unfold load4 le4
  rw [writeBytes_in, writeBytes_in, writeBytes_in, writeBytes_in] <;>
    simp [le4] <;> omega

/-- Zeroing a sector makes every load4 of it 0. -/
theorem load4_zeroSector_same (m : Nat → Nat → Nat) (s i : Nat) :
    load4 (zeroSector m s) s i = 0 := by
  simp [load4, zeroSector]

/-- Zeroing a sector leaves other sectors' load4 unchanged. -/
theorem load4_zeroSector_ne (m : Nat → Nat → Nat) (s s2 i : Nat)
    (h : s2 ≠ s) : load4 (zeroSector m s) s2 i = load4 m s2 i := by
  apply load4_congr_sector
  intro o
  simp [zeroSector, h]

/-- allFreeRange of a single bit. -/
theorem allFreeRange_one (b : Nat → Bool) (st : Nat) :
    allFreeRange b st 1 = !b st := by
  simp [allFreeRange, List.range_succ]

/-- When a free bit exists, the one-sector scan returns a free in-range
    bit. -/
theorem bitmapScan_one_spec (b : Nat → Bool) (bitcnt : Nat)
    (h : ∃ i, i < bitcnt ∧ b i = false) :
    ∃ s, bitmapScan b bitcnt 1 = some s ∧ s < bitcnt ∧ b s = false := by
  obtain ⟨i, hi, hbi⟩ := h
  have hsome : (bitmapScan b bitcnt 1).isSome := by
    unfold bitmapScan
    rw [List.find?_isSome]
    refine ⟨i, ?_, ?_⟩
    · rw [List.mem_range]; omega
    · rw [allFreeRange_one, hbi]; rfl
  obtain ⟨s, hs⟩ := Option.isSome_iff_exists.mp hsome
  have hs2 := hs
  unfold bitmapScan at hs2
  have hmem := List.mem_range.mp (List.mem_of_find?_eq_some hs2)
  have hsat := List.find?_some hs2
  rw [allFreeRange_one] at hsat
  refine ⟨s, hs, by omega, by simpa using hsat⟩

/-- Flipping one clear bit of a duplicate-free list to set removes exactly
    one element from the clear-bit filter. -/
theorem filter_length_flip : ∀ (l : List Nat), l.Nodup →
    ∀ (b : Nat → Bool) (s : Nat), s ∈ l → b s = false →
    (l.filter (fun i => !markRange b s 1 i)).length + 1 =
      (l.filter (fun i => !b i)).length := by
  intro l
  induction l with
  | nil => intro _ b s hmem; cases hmem
  | cons x t ih =>
      intro hnd b s hmem hbs
      rw [List.nodup_cons] at hnd
      by_cases hx : x = s
      · subst hx
        have h1 : markRange b x 1 x = true := by
          unfold markRange
          rw [if_pos (by omega)]
        have h2 : t.filter (fun i => !markRange b x 1 i) =
            t.filter (fun i => !b i) := by
          apply List.filter_congr
          intro i hi
          have hne : ¬(x ≤ i ∧ i < x + 1) := by
            have : i ≠ x := fun he => hnd.1 (he ▸ hi)
            omega
          unfold markRange
          rw [if_neg hne]
        simp [List.filter_cons, h1, hbs, h2]
      · have hmem2 : s ∈ t := by
          cases hmem with
          | head => exact absurd rfl hx
          | tail _ h => exact h
        have hms : markRange b s 1 x = b x := by
          unfold markRange
          rw [if_neg (by omega)]
        have hrec := ih hnd.2 b s hmem2 hbs
        cases hbx : b x with
        | false => simpa [List.filter_cons, hms, hbx] using hrec
        | true => simpa [List.filter_cons, hms, hbx] using hrec

/-- Successful single-sector allocation: the returned sector was free and
    in range, the store is untouched, the bitmap gains exactly that bit,
    and the free count drops by one. -/
theorem free_map_allocate_one_spec (fs : FS) (h : 1 ≤ freeBits fs) :
    ∃ s fs2, free_map_allocate fs 1 = some (s, fs2) ∧
      fs.freemap s = false ∧ s < fs.bitcnt ∧
      fs2.store = fs.store ∧ fs2.bitcnt = fs.bitcnt ∧
      fs2.freemap = markRange fs.freemap s 1 ∧
      freeBits fs2 + 1 = freeBits fs ∧
      (∀ i, fs.freemap i = true → fs2.freemap i = true) ∧
      fs2.freemap s = true := by
  have hex : ∃ i, i < fs.bitcnt ∧ fs.freemap i = false := by
    unfold freeBits at h
    rcases hfl : (List.range fs.bitcnt).filter (fun i => !fs.freemap i) with
      _ | ⟨a, t⟩
    · rw [hfl] at h; simp at h
    · have ha : a ∈ (List.range fs.bitcnt).filter (fun i => !fs.freemap i) := by
        rw [hfl]; exact List.mem_cons_self a t
      have := List.mem_filter.mp ha
      exact ⟨a, List.mem_range.mp this.1, by simpa using this.2⟩
  obtain ⟨s, hscan, hlt, hfree⟩ := bitmapScan_one_spec _ _ hex
  refine ⟨s,
    { fs with freemap := markRange fs.freemap s 1,
              ext := cache_sector_dirty_external fs.ext INODE_TABLE_SECTORS },
    ?_, hfree, hlt, rfl, rfl, rfl, ?_, ?_, ?_⟩
  · unfold free_map_allocate
    rw [hscan]
  · unfold freeBits
    exact filter_length_flip _ (List.nodup_range fs.bitcnt) _ s
      (List.mem_range.mpr hlt) hfree
  · intro i hi
    show markRange fs.freemap s 1 i = true
    unfold markRange
    split
    · rfl
    · exact hi
  · show markRange fs.freemap s 1 s = true
    unfold markRange
    rw [if_pos (by omega)]

/-- sector_fixup: identity on a nonzero pointer; on a zero pointer it
    allocates a fresh sector, zero-fills it, and marks it used. -/
theorem sector_fixup_spec (fs : FS) (p : Nat) (hfree : 1 ≤ freeBits fs) :
    (p ≠ 0 ∧ sector_fixup fs p = some (p, fs)) ∨
    (p = 0 ∧ ∃ s fs2, sector_fixup fs p = some (s, fs2) ∧
       fs.freemap s = false ∧ s < fs.bitcnt ∧
       fs2.store = zeroSector fs.store s ∧ fs2.bitcnt = fs.bitcnt ∧
       fs2.freemap = markRange fs.freemap s 1 ∧
       freeBits fs2 + 1 = freeBits fs ∧
       (∀ i, fs.freemap i = true → fs2.freemap i = true) ∧
       fs2.freemap s = true) := by
  by_cases hp : p = 0
  · right
    refine ⟨hp, ?_⟩
    obtain ⟨s, fs2, halloc, h1, h2, h3, h4, h5, h6, h7, h8⟩ :=
      free_map_allocate_one_spec fs hfree
    refine ⟨s, cache_sector_add fs2 s, ?_, h1, h2, ?_, h4, h5, h6, h7, h8⟩
    · unfold sector_fixup
      rw [if_pos hp, halloc]
    · show zeroSector fs2.store s = zeroSector fs.store s
      rw [h3]
  · left
    refine ⟨hp, ?_⟩
    unfold sector_fixup
    rw [if_neg hp]

/-- Numeric value of NUM_PER_SECTOR. -/
theorem nps_eq : NUM_PER_SECTOR = 128 := rfl

/-- Numeric value of DIRECT_LIMIT. -/
theorem direct_limit_eq : DIRECT_LIMIT = 5 := rfl

/-- Numeric value of SID_LIMIT. -/
theorem sid_limit_eq : SID_LIMIT = 261 := rfl

/-- Numeric value of DID_LIMIT. -/
theorem did_limit_eq : DID_LIMIT = 16645 := rfl

/-- Numeric value of BLOCK_SECTOR_SIZE. -/
theorem bss_eq : BLOCK_SECTOR_SIZE = 512 := rfl

/-- Numeric value of MAX_INDEX. -/
theorem max_index_eq : MAX_INDEX = 8 := rfl

/-- Numeric value of SID_INDEX. -/
theorem sid_index_eq : SID_INDEX = 5 := rfl

/-- Numeric value of DID_INDEX. -/
theorem did_index_eq : DID_INDEX = 7 := rfl

/-- Numeric value of INODE_TABLE_SECTORS. -/
theorem its_eq : INODE_TABLE_SECTORS = 100 := rfl

/-- Numeric value of INODES_PER_SECTOR. -/
theorem ips_eq : INODES_PER_SECTOR = 12 := rfl

/-- nz is none exactly on 0. -/
theorem nz_eq_none {v : Nat} : nz v = none ↔ v = 0 := by
  unfold nz
  split <;> simp_all

/-- nz is some exactly on the nonzero values. -/
theorem nz_eq_some {v w : Nat} : nz v = some w ↔ v = w ∧ v ≠ 0 := by
  unfold nz
  split <;> simp_all <;> omega

/-- If the loads of every sector that appears as the value of some address
    are unchanged, every address keeps its value. -/
theorem addrVal_index_congr (fs fs2 : FS) (ino : Inode) (R : Nat)
    (hWF : WF fs ino R)
    (h : ∀ v, (∃ aT, addrVal fs ino aT = some v) →
         ∀ c, load4 fs2.store v c = load4 fs.store v c) :
    ∀ a, addrVal fs2 ino a = addrVal fs ino a := by
  intro a
  cases a with
  | top w => rfl
  | sid w c =>
      simp only [addrVal]
      split
      next hg =>
          cases hnz : nz (ino.data.arr w) with
          | none => rfl
          | some t =>
              have ht : addrVal fs ino (TreeAddr.top w) = some t := by
                simp only [addrVal]
                rw [if_pos (by rw [max_index_eq]; omega), hnz]
              simp only [Option.some_bind]
              rw [h t ⟨_, ht⟩ c]
      next hg => rfl
  | mid c =>
      simp only [addrVal]
      split
      next hg =>
          cases hnz : nz (ino.data.arr DID_INDEX) with
          | none => rfl
          | some t =>
              have ht : addrVal fs ino (TreeAddr.top DID_INDEX) = some t := by
                simp only [addrVal]
                rw [if_pos (by rw [max_index_eq, did_index_eq]; omega), hnz]
              simp only [Option.some_bind]
              rw [h t ⟨_, ht⟩ c]
      next hg => rfl
  | dleaf c1 c2 =>
      simp only [addrVal]
      split
      next hg =>
          cases hnz : nz (ino.data.arr DID_INDEX) with
          | none => rfl
          | some t =>
              have ht : addrVal fs ino (TreeAddr.top DID_INDEX) = some t := by
                simp only [addrVal]
                rw [if_pos (by rw [max_index_eq, did_index_eq]; omega), hnz]
              simp only [Option.some_bind]
              rw [h t ⟨_, ht⟩ c1]
              cases hm : nz (load4 fs.store t c1) with
              | none => rfl
              | some m =>
                  have hmv : addrVal fs ino (TreeAddr.mid c1) = some m := by
                    simp only [addrVal]
                    rw [if_pos hg.1, hnz]
                    simpa using hm
                  simp only [Option.some_bind]
                  rw [h m ⟨_, hmv⟩ c2]
      next hg => rfl

/-- A mapped sector index names a live (reserved-exterior, marked)
    sector. -/
theorem live_of_sectorOfIdx (fs : FS) (ino : Inode) (R k σ : Nat)
    (hWF : WF fs ino R) (h : sectorOfIdx fs ino k = some σ) :
    R ≤ σ ∧ fs.freemap σ = true := by
  unfold sectorOfIdx at h
  by_cases hk : k < DID_LIMIT
  · rw [if_pos hk] at h
    exact hWF.live _ _ h
  · rw [if_neg hk] at h
    cases h

/-- The address backing a sector index is always a leaf address. -/
theorem isLeafAddr_leafAddr (k : Nat) : isLeafAddr (leafAddr k) := by
  unfold leafAddr
  split
  next h => simpa [isLeafAddr] using h
  · split
    · simp [isLeafAddr]
    · simp [isLeafAddr]

/-- Distinct in-range sector indices are backed by distinct addresses. -/
theorem leafAddr_inj (j k : Nat) (hj : j < DID_LIMIT) (hk : k < DID_LIMIT)
    (hne : j ≠ k) : leafAddr j ≠ leafAddr k := by
  unfold leafAddr
  rw [did_limit_eq] at hj hk
  simp only [nps_eq, direct_limit_eq, sid_limit_eq, sid_index_eq]
  split_ifs <;> intro he <;>
    first
      | (injection he with h1 h2; omega)
      | (injection he with h1; omega)
      | cases he

/-- Zero-filling a sector that the free map still lists as free changes no
    address's value (every index sector on a path is live, hence marked). -/
theorem addrVal_alloc_zero (fs : FS) (ino : Inode) (R s : Nat)
    (hWF : WF fs ino R) (hs : fs.freemap s = false) (fs2 : FS)
    (hst : fs2.store = zeroSector fs.store s) :
    ∀ a, addrVal fs2 ino a = addrVal fs ino a := by
  apply addrVal_index_congr fs fs2 ino R hWF
  intro v hv c
  obtain ⟨aT, haT⟩ := hv
  have hlive := hWF.live _ _ haT
  have hne : v ≠ s := by
    intro he
    rw [he, hs] at hlive
    exact absurd hlive.2 (by simp)
  rw [hst]
  exact load4_zeroSector_ne _ _ _ _ hne

/-- Well-formedness transports along a pointwise equality of the address
    map when the used-marks only grow. -/
theorem WF_of_addrVal_eq (fs fs2 : FS) (ino ino2 : Inode) (R : Nat)
    (hWF : WF fs ino R)
    (hAV : ∀ a, addrVal fs2 ino2 a = addrVal fs ino a)
    (hmk : ∀ i, fs.freemap i = true → fs2.freemap i = true)
    (hbit : fs2.bitcnt ≤ 2 ^ 32)
    (hinum : ino2.inumber = ino.inumber) :
    WF fs2 ino2 R := by
  refine ⟨hWF.r_ge, ?_, ?_, ?_, hbit, by rw [hinum]; exact hWF.inum_lt⟩
  · intro i hi
    exact hmk i (hWF.reserved i hi)
  · intro a v h
    rw [hAV] at h
    have := hWF.live _ _ h
    exact ⟨this.1, hmk _ this.2⟩
  · intro a b v h1 h2
    rw [hAV] at h1 h2
    exact hWF.inj _ _ _ h1 h2

/-- Well-formedness after extending the address map at one address with a
    fresh (previously unmapped, now marked) sector. -/
theorem WF_extend (fs3 : FS) (ino3 : Inode) (fs2 : FS) (ino : Inode)
    (R : Nat) (child : TreeAddr) (u : Nat)
    (hWF2 : WF fs2 ino R)
    (hAV : ∀ a, addrVal fs3 ino3 a =
       if a = child then some u else addrVal fs2 ino a)
    (hR : R ≤ u) (hmku : fs3.freemap u = true)
    (hmk : ∀ i, fs2.freemap i = true → fs3.freemap i = true)
    (hfresh : ∀ a v, addrVal fs2 ino a = some v → v ≠ u)
    (hbit : fs3.bitcnt ≤ 2 ^ 32) (hinum : ino3.inumber = ino.inumber) :
    WF fs3 ino3 R := by
  refine ⟨hWF2.r_ge, ?_, ?_, ?_, hbit, by rw [hinum]; exact hWF2.inum_lt⟩
  · intro i hi
    exact hmk i (hWF2.reserved i hi)
  · intro a v h
    rw [hAV] at h
    by_cases ha : a = child
    · rw [if_pos ha] at h
      cases h
      exact ⟨hR, hmku⟩
    · rw [if_neg ha] at h
      have := hWF2.live _ _ h
      exact ⟨this.1, hmk _ this.2⟩
  · intro a b v h1 h2
    rw [hAV] at h1 h2
    by_cases ha : a = child <;> by_cases hb : b = child
    · rw [ha, hb]
    · rw [if_pos ha] at h1
      rw [if_neg hb] at h2
      cases h1
      exact absurd rfl (hfresh _ _ h2)
    · rw [if_neg ha] at h1
      rw [if_pos hb] at h2
      cases h2
      exact absurd rfl (hfresh _ _ h1)
    · rw [if_neg ha] at h1
      rw [if_neg hb] at h2
      exact hWF2.inj _ _ _ h1 h2

/-- Assigning a fresh zero-filled sector to a previously 0 slot of the
    block array maps exactly that top address and nothing else. -/
theorem addrVal_setTop (fs2 : FS) (ino : Inode) (w s : Nat)
    (hw : w < MAX_INDEX) (harr0 : ino.data.arr w = 0)
    (hszero : ∀ c, load4 fs2.store s c = 0) (hsnz : s ≠ 0) :
    ∀ a, addrVal fs2 (setArr ino w s) a =
      if a = TreeAddr.top w then some s else addrVal fs2 ino a := by
  have harr : ∀ w2, (setArr ino w s).data.arr w2 =
      if w2 = w then s else ino.data.arr w2 := by
    intro w2
    show updFn ino.data.arr w s w2 = _
    unfold updFn
    rfl
  intro a
  cases a with
  | top w2 =>
      by_cases hww : w2 = w
      · subst hww
        rw [if_pos rfl]
        simp only [addrVal]
        rw [if_pos hw, harr, if_pos rfl]
        simp [nz, hsnz]
      · rw [if_neg (by simp [hww])]
        simp only [addrVal]
        by_cases hw2 : w2 < MAX_INDEX
        · rw [if_pos hw2, if_pos hw2, harr, if_neg hww]
        · rw [if_neg hw2, if_neg hw2]
  | sid w2 c =>
      rw [if_neg (by simp)]
      simp only [addrVal]
      split
      next hg =>
          by_cases hww : w2 = w
          · subst hww
            rw [harr, if_pos rfl, harr0]
            rw [show nz s = some s from by simp [nz, hsnz]]
            rw [show (nz 0 : Option Nat) = none from by simp [nz]]
            simp only [Option.some_bind, Option.none_bind, hszero]
            simp [nz]
          · rw [harr, if_neg hww]
      next hg => rfl
  | mid c =>
      rw [if_neg (by simp)]
      simp only [addrVal]
      split
      next hg =>
          rw [harr]
          by_cases hww : DID_INDEX = w
          · rw [if_pos hww]
            rw [← hww] at harr0
            rw [harr0]
            rw [show nz s = some s from by simp [nz, hsnz]]
            rw [show (nz 0 : Option Nat) = none from by simp [nz]]
            simp only [Option.some_bind, Option.none_bind, hszero]
            simp [nz]
          · rw [if_neg hww]
      next hg => rfl
  | dleaf c1 c2 =>
      rw [if_neg (by simp)]
      simp only [addrVal]
      split
      next hg =>
          rw [harr]
          by_cases hww : DID_INDEX = w
          · rw [if_pos hww]
            rw [← hww] at harr0
            rw [harr0]
            rw [show nz s = some s from by simp [nz, hsnz]]
            rw [show (nz 0 : Option Nat) = none from by simp [nz]]
            simp only [Option.some_bind, Option.none_bind, hszero]
            simp [nz]
          · rw [if_neg hww]
      next hg => rfl

/-- Distinct addresses carry distinct sector values (contrapositive of
    injectivity). -/
theorem vals_ne (fs : FS) (ino : Inode) (R : Nat) (hWF : WF fs ino R)
    {a1 a2 : TreeAddr} {v1 v2 : Nat}
    (h1 : addrVal fs ino a1 = some v1) (h2 : addrVal fs ino a2 = some v2)
    (hne : a1 ≠ a2) : v1 ≠ v2 := by
  intro he
  exact hne (hWF.inj _ _ _ h1 (he ▸ h2))

/-- Writing a fresh zero-filled sector number u into cell c of the live
    index sector t (the value of parent address aT, whose cell c was 0)
    maps exactly the child address of (aT, c) to u and changes no other
    address's value. -/
theorem addrVal_cell_assign (fs2 : FS) (ino : Inode) (R : Nat)
    (aT child : TreeAddr) (t c u : Nat)
    (hWF : WF fs2 ino R)
    (hT : addrVal fs2 ino aT = some t)
    (hprev : load4 fs2.store t c = 0)
    (hcN : c < NUM_PER_SECTOR)
    (hunz : u ≠ 0)
    (hufresh : ∀ a v, addrVal fs2 ino a = some v → v ≠ u)
    (huzero : ∀ c2, load4 fs2.store u c2 = 0)
    (hu32 : u < 2 ^ 32)
    (hparent :
      (∃ w, aT = TreeAddr.top w ∧ (w = 5 ∨ w = 6) ∧
        child = TreeAddr.sid w c) ∨
      (aT = TreeAddr.top DID_INDEX ∧ child = TreeAddr.mid c) ∨
      (∃ c1, aT = TreeAddr.mid c1 ∧ c1 < NUM_PER_SECTOR ∧
        child = TreeAddr.dleaf c1 c))
    (fs3 : FS)
    (hst : fs3.store = writeBytes fs2.store t (4 * c) (le4 u)) :
    ∀ a, addrVal fs3 ino a =
      if a = child then some u else addrVal fs2 ino a := by
  have hL3same : load4 fs3.store t c = u := by
    rw [hst]; exact load4_store4_same _ _ _ _ hu32
  have hL3cell : ∀ c2, c2 ≠ c → load4 fs3.store t c2 =
      load4 fs2.store t c2 := by
    intro c2 hc2
    rw [hst]; exact load4_store4_ne_cell _ _ _ _ _ hc2
  have hL3sec : ∀ s2, s2 ≠ t → ∀ c2, load4 fs3.store s2 c2 =
      load4 fs2.store s2 c2 := by
    intro s2 hs2 c2
    rw [hst]; exact load4_writeBytes_ne_sector _ _ _ _ _ _ hs2
  have htop : ∀ w2 t2, ino.data.arr w2 = t2 → t2 ≠ 0 → w2 < MAX_INDEX →
      addrVal fs2 ino (TreeAddr.top w2) = some t2 := by
    intro w2 t2 ha hnz0 hw2
    simp only [addrVal]
    rw [if_pos hw2, ha]
    simp [nz, hnz0]
  have hnzsome : ∀ v : Nat, v ≠ 0 → nz v = some v := by
    intro v hv; simp [nz, hv]
  intro a
  cases a with
  | top w2 =>
      have hnc : TreeAddr.top w2 ≠ child := by
        rcases hparent with ⟨w, -, -, hch⟩ | ⟨-, hch⟩ | ⟨c1, -, -, hch⟩ <;>
          (rw [hch]; intro he; cases he)
      rw [if_neg hnc]
      rfl
  | sid w2 c2 =>
      by_cases hch : TreeAddr.sid w2 c2 = child
      · rw [if_pos hch]
        rcases hparent with ⟨w, haT, hw56, hchild⟩ | ⟨haT, hchild⟩ |
          ⟨c1, haT, hc1, hchild⟩
        · rw [hchild] at hch
          injection hch with e1 e2
          subst e1
          subst e2
          subst haT
          simp only [addrVal] at hT
          rw [if_pos (by rw [max_index_eq]; omega)] at hT
          obtain ⟨harrw, hne0⟩ := nz_eq_some.mp hT
          simp only [addrVal]
          rw [if_pos ⟨hw56, hcN⟩, harrw, hnzsome t (harrw ▸ hne0)]
          simp only [Option.some_bind]
          rw [hL3same]
          exact hnzsome u hunz
        · rw [hchild] at hch; cases hch
        · rw [hchild] at hch; cases hch
      · rw [if_neg hch]
        simp only [addrVal]
        by_cases hg : (w2 = 5 ∨ w2 = 6) ∧ c2 < NUM_PER_SECTOR
        · rw [if_pos hg, if_pos hg]
          rcases hnz : nz (ino.data.arr w2) with _ | t2
          · rfl
          · simp only [Option.some_bind]
            obtain ⟨harr2, hne0⟩ := nz_eq_some.mp hnz
            have ht2 : addrVal fs2 ino (TreeAddr.top w2) = some t2 :=
              htop w2 t2 harr2 (harr2 ▸ hne0)
                (by rw [max_index_eq]; omega)
            rcases hparent with ⟨w, haT, hw56, hchild⟩ | ⟨haT, hchild⟩ |
              ⟨c1, haT, hc1, hchild⟩
            · subst haT
              by_cases hww : w2 = w
              · subst hww
                have he : t2 = t := by
                  rw [hT] at ht2
                  injection ht2 with he2
                  exact he2.symm
                subst he
                have hc2c : c2 ≠ c := by
                  intro he
                  exact hch (by rw [hchild, he])
                rw [hL3cell c2 hc2c]
              · have hne : t2 ≠ t := vals_ne fs2 ino R hWF ht2 hT
                  (by intro he; injection he with e; exact hww e)
                rw [hL3sec t2 hne c2]
            · subst haT
              have hne : t2 ≠ t := vals_ne fs2 ino R hWF ht2 hT
                (by intro he; injection he with e; rw [did_index_eq] at e; omega)
              rw [hL3sec t2 hne c2]
            · subst haT
              have hne : t2 ≠ t := vals_ne fs2 ino R hWF ht2 hT
                (by intro he; cases he)
              rw [hL3sec t2 hne c2]
        · rw [if_neg hg, if_neg hg]
  | mid c2 =>
      by_cases hch : TreeAddr.mid c2 = child
      · rw [if_pos hch]
        rcases hparent with ⟨w, haT, hw56, hchild⟩ | ⟨haT, hchild⟩ |
          ⟨c1, haT, hc1, hchild⟩
        · rw [hchild] at hch; cases hch
        · rw [hchild] at hch
          injection hch with e1
          subst e1
          subst haT
          simp only [addrVal] at hT
          rw [if_pos (by rw [max_index_eq, did_index_eq]; omega)] at hT
          obtain ⟨harrw, hne0⟩ := nz_eq_some.mp hT
          simp only [addrVal]
          rw [if_pos hcN, harrw, hnzsome t (harrw ▸ hne0)]
          simp only [Option.some_bind]
          rw [hL3same]
          exact hnzsome u hunz
        · rw [hchild] at hch; cases hch
      · rw [if_neg hch]
        simp only [addrVal]
        by_cases hg : c2 < NUM_PER_SECTOR
        · rw [if_pos hg, if_pos hg]
          rcases hnz : nz (ino.data.arr DID_INDEX) with _ | t7
          · rfl
          · simp only [Option.some_bind]
            obtain ⟨harr7, hne0⟩ := nz_eq_some.mp hnz
            have ht7 : addrVal fs2 ino (TreeAddr.top DID_INDEX) = some t7 :=
              htop _ t7 harr7 (harr7 ▸ hne0)
                (by rw [max_index_eq, did_index_eq]; omega)
            rcases hparent with ⟨w, haT, hw56, hchild⟩ | ⟨haT, hchild⟩ |
              ⟨c1, haT, hc1, hchild⟩
            · subst haT
              have hne : t7 ≠ t := vals_ne fs2 ino R hWF ht7 hT
                (by intro he; injection he with e; rw [did_index_eq] at e; omega)
              rw [hL3sec t7 hne c2]
            · subst haT
              have he : t7 = t := by
                rw [hT] at ht7
                injection ht7 with he2
                exact he2.symm
              subst he
              have hc2c : c2 ≠ c := by
                intro he
                exact hch (by rw [hchild, he])
              rw [hL3cell c2 hc2c]
            · subst haT
              have hne : t7 ≠ t := vals_ne fs2 ino R hWF ht7 hT
                (by intro he; cases he)
              rw [hL3sec t7 hne c2]
        · rw [if_neg hg, if_neg hg]
  | dleaf d1 d2 =>
      by_cases hch : TreeAddr.dleaf d1 d2 = child
      · rw [if_pos hch]
        rcases hparent with ⟨w, haT, hw56, hchild⟩ | ⟨haT, hchild⟩ |
          ⟨c1, haT, hc1, hchild⟩
        · rw [hchild] at hch; cases hch
        · rw [hchild] at hch; cases hch
        · rw [hchild] at hch
          injection hch with e1 e2
          subst e1
          subst e2
          subst haT
          have hTm := hT
          simp only [addrVal] at hTm
          rw [if_pos hc1] at hTm
          rcases hnz7 : nz (ino.data.arr DID_INDEX) with _ | t7
          · rw [hnz7] at hTm; cases hTm
          · rw [hnz7] at hTm
            simp only [Option.some_bind] at hTm
            obtain ⟨harr7, hne0⟩ := nz_eq_some.mp hnz7
            have ht7 : addrVal fs2 ino (TreeAddr.top DID_INDEX) = some t7 :=
              htop _ t7 harr7 (harr7 ▸ hne0)
                (by rw [max_index_eq, did_index_eq]; omega)
            have hne7 : t7 ≠ t := vals_ne fs2 ino R hWF ht7 hT
              (by intro he; cases he)
            simp only [addrVal]
            rw [if_pos ⟨hc1, hcN⟩, hnz7]
            simp only [Option.some_bind]
            rw [hL3sec t7 hne7 d1, hTm]
            simp only [Option.some_bind]
            rw [hL3same]
            exact hnzsome u hunz
      · rw [if_neg hch]
        simp only [addrVal]
        by_cases hg : d1 < NUM_PER_SECTOR ∧ d2 < NUM_PER_SECTOR
        · rw [if_pos hg, if_pos hg]
          rcases hnz7 : nz (ino.data.arr DID_INDEX) with _ | t7
          · rfl
          · simp only [Option.some_bind]
            obtain ⟨harr7, hne0⟩ := nz_eq_some.mp hnz7
            have ht7 : addrVal fs2 ino (TreeAddr.top DID_INDEX) = some t7 :=
              htop _ t7 harr7 (harr7 ▸ hne0)
                (by rw [max_index_eq, did_index_eq]; omega)
            have hmval : ∀ m, nz (load4 fs2.store t7 d1) = some m →
                addrVal fs2 ino (TreeAddr.mid d1) = some m := by
              intro m hm
              simp only [addrVal]
              rw [if_pos hg.1, hnz7]
              simpa using hm
            rcases hparent with ⟨w, haT, hw56, hchild⟩ | ⟨haT, hchild⟩ |
              ⟨c1, haT, hc1, hchild⟩
            · subst haT
              have hne : t7 ≠ t := vals_ne fs2 ino R hWF ht7 hT
                (by intro he; injection he with e; rw [did_index_eq] at e; omega)
              rw [hL3sec t7 hne d1]
              rcases hnzm : nz (load4 fs2.store t7 d1) with _ | m
              · rfl
              · simp only [Option.some_bind]
                have hnem : m ≠ t := vals_ne fs2 ino R hWF (hmval m hnzm) hT
                  (by intro he; cases he)
                rw [hL3sec m hnem d2]
            · subst haT
              have he : t7 = t := by
                rw [hT] at ht7
                injection ht7 with he2
                exact he2.symm
              subst he
              by_cases hd1c : d1 = c
              · subst hd1c
                rw [hL3same, hprev]
                have hune : u ≠ t7 := by
                  intro he
                  exact hufresh _ _ hT he.symm
                rw [hnzsome u hunz]
                simp only [Option.some_bind]
                rw [hL3sec u hune d2, huzero d2]
                simp [nz]
              · rw [hL3cell d1 hd1c]
                rcases hnzm : nz (load4 fs2.store t7 d1) with _ | m
                · rfl
                · simp only [Option.some_bind]
                  have hnem : m ≠ t7 := vals_ne fs2 ino R hWF (hmval m hnzm)
                    hT (by intro he; cases he)
                  rw [hL3sec m hnem d2]
            · subst haT
              have hne : t7 ≠ t := vals_ne fs2 ino R hWF ht7 hT
                (by intro he; cases he)
              rw [hL3sec t7 hne d1]
              rcases hnzm : nz (load4 fs2.store t7 d1) with _ | m
              · rfl
              · simp only [Option.some_bind]
                by_cases hd1c1 : d1 = c1
                · subst hd1c1
                  have he : m = t := by
                    have := hmval m hnzm
                    rw [hT] at this
                    injection this with he2
                    exact he2.symm
                  subst he
                  by_cases hd2c : d2 = c
                  · exfalso
                    apply hch
                    rw [hchild, hd2c]
                  · rw [hL3cell d2 hd2c]
                · have hnem : m ≠ t := vals_ne fs2 ino R hWF (hmval m hnzm)
                    hT (by intro he; injection he with e; exact hd1c1 e)
                  rw [hL3sec m hnem d2]
        · rw [if_neg hg, if_neg hg]

/-- The child address of a parent cell reads exactly that cell. -/
theorem addrVal_child_eq (fs2 : FS) (ino : Inode) (aT child : TreeAddr)
    (t c : Nat) (hT : addrVal fs2 ino aT = some t) (hcN : c < NUM_PER_SECTOR)
    (hparent :
      (∃ w, aT = TreeAddr.top w ∧ (w = 5 ∨ w = 6) ∧
        child = TreeAddr.sid w c) ∨
      (aT = TreeAddr.top DID_INDEX ∧ child = TreeAddr.mid c) ∨
      (∃ c1, aT = TreeAddr.mid c1 ∧ c1 < NUM_PER_SECTOR ∧
        child = TreeAddr.dleaf c1 c)) :
    addrVal fs2 ino child = nz (load4 fs2.store t c) := by
  rcases hparent with ⟨w, haT, hw56, hchild⟩ | ⟨haT, hchild⟩ |
    ⟨c1, haT, hc1, hchild⟩
  · subst haT
    subst hchild
    simp only [addrVal] at hT ⊢
    rw [if_pos (by rw [max_index_eq]; omega)] at hT
    rw [if_pos ⟨hw56, hcN⟩, hT]
    rfl
  · subst haT
    subst hchild
    simp only [addrVal] at hT ⊢
    rw [if_pos (by rw [max_index_eq, did_index_eq]; omega)] at hT
    rw [if_pos hcN, hT]
    rfl
  · subst haT
    subst hchild
    simp only [addrVal] at hT ⊢
    rw [if_pos hc1] at hT
    rw [if_pos ⟨hc1, hcN⟩]
    rcases hnz7 : nz (ino.data.arr DID_INDEX) with _ | t7
    · rw [hnz7] at hT; cases hT
    · rw [hnz7] at hT
      simp only [Option.some_bind] at hT ⊢
      rw [hT]
      rfl

/-- A leaf-valued sector is distinct from the value of a non-leaf
    address. -/
theorem leaf_ne_index (fs : FS) (ino : Inode) (R : Nat) (hWF : WF fs ino R)
    {a aT : TreeAddr} {σ t : Nat} (ha : isLeafAddr a)
    (haV : addrVal fs ino a = some σ) (hT : addrVal fs ino aT = some t)
    (hnl : ¬isLeafAddr aT) : σ ≠ t :=
  vals_ne fs ino R hWF haV hT (fun he => hnl (he ▸ ha))

/-- Writing an inode back to its inode-table slot touches only a sector
    below the reserved bound, so it changes no address, no live sector's
    bytes, and preserves well-formedness. -/
theorem inode_write_to_table_spec (fs3 : FS) (ino1 : Inode) (R : Nat)
    (hWF : WF fs3 ino1 R) (inum : Nat)
    (hinum : inum < INODE_TABLE_SECTORS * INODES_PER_SECTOR)
    (d : InodeData) :
    WF (inode_write_to_table fs3 inum d) ino1 R ∧
    (∀ a, addrVal (inode_write_to_table fs3 inum d) ino1 a =
       addrVal fs3 ino1 a) ∧
    (∀ σ o, R ≤ σ →
       (inode_write_to_table fs3 inum d).store σ o = fs3.store σ o) ∧
    (inode_write_to_table fs3 inum d).freemap = fs3.freemap ∧
    (inode_write_to_table fs3 inum d).bitcnt = fs3.bitcnt := by
  have htsec : inum / INODES_PER_SECTOR < INODE_TABLE_SECTORS := by
    rw [ips_eq] at *
    rw [its_eq] at *
    omega
  have hstore : ∀ σ o, R ≤ σ →
      (inode_write_to_table fs3 inum d).store σ o = fs3.store σ o := by
    intro σ o hσ
    show writeBytes fs3.store (inum / INODES_PER_SECTOR) _ _ σ o = _
    apply writeBytes_notin
    rintro ⟨he, -, -⟩
    have := hWF.r_ge
    omega
  have hAV : ∀ a, addrVal (inode_write_to_table fs3 inum d) ino1 a =
      addrVal fs3 ino1 a := by
    apply addrVal_index_congr fs3 _ ino1 R hWF
    intro v hv c
    obtain ⟨aT, haT⟩ := hv
    have hlive := hWF.live _ _ haT
    apply load4_congr_sector
    intro o
    exact hstore v o hlive.1
  refine ⟨?_, hAV, hstore, rfl, rfl⟩
  exact WF_of_addrVal_eq fs3 _ ino1 ino1 R hWF hAV (fun i h => h)
    hWF.bitcnt_le rfl

/-- sector_fixup_disk resolves the cell (allocating a fresh zero-filled
    child when the cell is 0): the child address is mapped afterwards,
    nothing else changes, and at most one free sector is consumed. -/
theorem sector_fixup_disk_spec (fs2 : FS) (ino : Inode) (R : Nat)
    (aT child : TreeAddr) (t c : Nat)
    (hWF : WF fs2 ino R) (hfree : 1 ≤ freeBits fs2)
    (hT : addrVal fs2 ino aT = some t)
    (hcN : c < NUM_PER_SECTOR)
    (hnlT : ¬isLeafAddr aT)
    (hparent :
      (∃ w, aT = TreeAddr.top w ∧ (w = 5 ∨ w = 6) ∧
        child = TreeAddr.sid w c) ∨
      (aT = TreeAddr.top DID_INDEX ∧ child = TreeAddr.mid c) ∨
      (∃ c1, aT = TreeAddr.mid c1 ∧ c1 < NUM_PER_SECTOR ∧
        child = TreeAddr.dleaf c1 c)) :
    ∃ u fs3, sector_fixup_disk fs2 t c = some (u, fs3) ∧
      WF fs3 ino R ∧
      addrVal fs3 ino child = some u ∧
      (∀ a, a ≠ child → addrVal fs3 ino a = addrVal fs2 ino a) ∧
      fs3.bitcnt = fs2.bitcnt ∧
      freeBits fs2 ≤ freeBits fs3 + 1 ∧
      (∀ i, fs2.freemap i = true → fs3.freemap i = true) ∧
      (∀ a σ, isLeafAddr a → addrVal fs2 ino a = some σ →
         ∀ o, fs3.store σ o = fs2.store σ o) ∧
      (load4 fs2.store t c = 0 → ∀ o, fs3.store u o = 0) ∧
      (load4 fs2.store t c = 0 →
         ∀ a v, addrVal fs2 ino a = some v → v ≠ u) ∧
      (load4 fs2.store t c ≠ 0 →
         u = load4 fs2.store t c ∧ fs3 = fs2) := by
  by_cases h0 : load4 fs2.store t c = 0
  · rcases sector_fixup_spec fs2 (load4 fs2.store t c) hfree with
      ⟨hne, -⟩ | ⟨-, u, fs2a, hsf, hfm_false, hult, hstore, hbit, hfmap,
        hfb, hmono, hmarked⟩
    · exact absurd h0 hne
    · have hAVa : ∀ a, addrVal fs2a ino a = addrVal fs2 ino a :=
        addrVal_alloc_zero fs2 ino R u hWF hfm_false fs2a hstore
      have hWFa : WF fs2a ino R :=
        WF_of_addrVal_eq fs2 fs2a ino ino R hWF hAVa hmono
          (by rw [hbit]; exact hWF.bitcnt_le) rfl
      have hRu : R ≤ u := by
        by_contra hlt
        rw [hWF.reserved u (by omega)] at hfm_false
        cases hfm_false
      have hu32 : u < 2 ^ 32 := lt_of_lt_of_le hult hWF.bitcnt_le
      have hunz : u ≠ 0 := by
        have := hWF.r_ge
        rw [its_eq] at this
        omega
      have hufresh2 : ∀ a v, addrVal fs2 ino a = some v → v ≠ u := by
        intro a v hv he
        have := (hWF.live _ _ hv).2
        rw [he, hfm_false] at this
        cases this
      have hufresha : ∀ a v, addrVal fs2a ino a = some v → v ≠ u := by
        intro a v hv
        rw [hAVa] at hv
        exact hufresh2 a v hv
      have htA : addrVal fs2a ino aT = some t := by rw [hAVa]; exact hT
      have htu : t ≠ u := hufresh2 aT t hT
      have hpreva : load4 fs2a.store t c = 0 := by
        rw [hstore, load4_zeroSector_ne _ _ _ _ htu]
        exact h0
      have huzeroa : ∀ c2, load4 fs2a.store u c2 = 0 := by
        intro c2
        rw [hstore]
        exact load4_zeroSector_same _ _ _
      have hAV3 := addrVal_cell_assign fs2a ino R aT child t c u hWFa htA
        hpreva hcN hunz hufresha huzeroa hu32 hparent
        (cache_sector_write fs2a t (le4 u) (4 * c)) rfl
      refine ⟨u, cache_sector_write fs2a t (le4 u) (4 * c), ?_, ?_, ?_, ?_,
        ?_, ?_, ?_, ?_, ?_, ?_, fun hne => absurd h0 hne⟩
      · unfold sector_fixup_disk
        dsimp only
        rw [hsf]
        dsimp only
        rw [if_pos h0]
      · refine WF_extend _ ino fs2a ino R child u hWFa hAV3 hRu ?_
          (fun i h => h) hufresha ?_ rfl
        · show fs2a.freemap u = true
          exact hmarked
        · show fs2a.bitcnt ≤ 2 ^ 32
          rw [hbit]
          exact hWF.bitcnt_le
      · rw [hAV3 child, if_pos rfl]
      · intro a ha
        rw [hAV3 a, if_neg ha, hAVa]
      · show fs2a.bitcnt = fs2.bitcnt
        exact hbit
      · have : freeBits (cache_sector_write fs2a t (le4 u) (4 * c)) =
            freeBits fs2a := rfl
        omega
      · intro i h
        exact hmono i h
      · intro a σ hleaf hσ o
        have hσlive := hWF.live _ _ hσ
        have hσu : σ ≠ u := hufresh2 a σ hσ
        have hσt : σ ≠ t := leaf_ne_index fs2 ino R hWF hleaf hσ hT hnlT
        show writeBytes fs2a.store t (4 * c) (le4 u) σ o = fs2.store σ o
        rw [writeBytes_notin _ _ _ _ _ _ (by tauto), hstore]
        show zeroSector fs2.store u σ o = fs2.store σ o
        unfold zeroSector
        rw [if_neg hσu]
      · intro _ o
        show writeBytes fs2a.store t (4 * c) (le4 u) u o = 0
        rw [writeBytes_notin _ _ _ _ _ _ (by tauto), hstore]
        show zeroSector fs2.store u u o = 0
        unfold zeroSector
        rw [if_pos rfl]
      · intro _
        exact hufresh2
  · have hchild := addrVal_child_eq fs2 ino aT child t c hT hcN hparent
    refine ⟨load4 fs2.store t c, fs2, ?_, hWF, ?_, fun a _ => rfl, rfl,
      by omega, fun i h => h, fun a σ _ _ o => rfl,
      fun hc0 => absurd hc0 h0, fun hc0 => absurd hc0 h0,
      fun _ => ⟨rfl, rfl⟩⟩
    · unfold sector_fixup_disk
      dsimp only
      have hsfp : sector_fixup fs2 (load4 fs2.store t c) =
          some (load4 fs2.store t c, fs2) := by
        unfold sector_fixup
        rw [if_neg h0]
      rw [hsfp]
      dsimp only
      rw [if_neg h0]
    · rw [hchild]
      simp [nz, h0]

/-- freeBits only reads the bitmap fields. -/
theorem freeBits_congr (fs fs2 : FS) (h1 : fs2.freemap = fs.freemap)
    (h2 : fs2.bitcnt = fs.bitcnt) : freeBits fs2 = freeBits fs := by
  unfold freeBits
  rw [h1, h2]

/-- setArr only changes the block array. -/
theorem setArr_shape (ino : Inode) (w s : Nat) :
    (setArr ino w s).data.length = ino.data.length ∧
    (setArr ino w s).inumber = ino.inumber ∧
    (setArr ino w s).deny_write_cnt = ino.deny_write_cnt :=
  ⟨rfl, rfl, rfl⟩

/-- A mapped index is in range. -/
theorem sectorOfIdx_some_lt (fs : FS) (ino : Inode) {k σ : Nat}
    (h : sectorOfIdx fs ino k = some σ) : k < DID_LIMIT := by
  unfold sectorOfIdx at h
  by_cases hk : k < DID_LIMIT
  · exact hk
  · rw [if_neg hk] at h
    cases h

/-- Writing back an inode with only its block array changed, at the same
    inumber: setArr specialization of inode_write_to_table (the table
    write fixes neither store invariants nor the address map). -/
theorem setArr_self (ino : Inode) (w : Nat) :
    setArr ino w (ino.data.arr w) = ino := by
  unfold setArr
  rw [updFn_self]

/-- The top-level sector_fixup of sector_fixup_depth: resolves (allocating
    if 0) the block-array slot w, after which the slot's address maps to
    the result and nothing else changed. -/
theorem sector_fixup_top_spec (fs : FS) (ino : Inode) (R w : Nat)
    (hWF : WF fs ino R) (hfree : 1 ≤ freeBits fs) (hw : w < MAX_INDEX) :
    ∃ s fs1, sector_fixup fs (ino.data.arr w) = some (s, fs1) ∧
      WF fs1 (setArr ino w s) R ∧
      addrVal fs1 (setArr ino w s) (TreeAddr.top w) = some s ∧
      (∀ a, a ≠ TreeAddr.top w →
         addrVal fs1 (setArr ino w s) a = addrVal fs ino a) ∧
      fs1.bitcnt = fs.bitcnt ∧
      freeBits fs ≤ freeBits fs1 + 1 ∧
      (∀ i, fs.freemap i = true → fs1.freemap i = true) ∧
      (∀ a σ, isLeafAddr a → addrVal fs ino a = some σ →
         ∀ o, fs1.store σ o = fs.store σ o) ∧
      (ino.data.arr w = 0 → ∀ o, fs1.store s o = 0) ∧
      (ino.data.arr w = 0 → ∀ a v, addrVal fs ino a = some v → v ≠ s) ∧
      (ino.data.arr w ≠ 0 → s = ino.data.arr w ∧ fs1 = fs) := by
  rcases sector_fixup_spec fs (ino.data.arr w) hfree with
    ⟨hne, heq⟩ | ⟨h0, s, fs1, heq, hfm_false, hslt, hstore, hbit, hfmap,
      hfb, hmono, hmarked⟩
  · refine ⟨ino.data.arr w, fs, ?_, ?_, ?_, ?_, rfl, by omega,
      fun i h => h, fun a σ _ _ o => rfl,
      fun hc => absurd hc hne, fun hc => absurd hc hne,
      fun _ => ⟨rfl, rfl⟩⟩
    · exact heq
    · rw [setArr_self]
      exact hWF
    · rw [setArr_self]
      simp only [addrVal]
      rw [if_pos hw]
      simp [nz, hne]
    · intro a _
      rw [setArr_self]
  · have hAVa : ∀ a, addrVal fs1 ino a = addrVal fs ino a :=
      addrVal_alloc_zero fs ino R s hWF hfm_false fs1 hstore
    have hRs : R ≤ s := by
      by_contra hlt
      rw [hWF.reserved s (by omega)] at hfm_false
      cases hfm_false
    have hsnz : s ≠ 0 := by
      have := hWF.r_ge
      rw [its_eq] at this
      omega
    have hszero : ∀ c, load4 fs1.store s c = 0 := by
      intro c2
      rw [hstore]
      exact load4_zeroSector_same _ _ _
    have hfresh : ∀ a v, addrVal fs ino a = some v → v ≠ s := by
      intro a v hv he
      have := (hWF.live _ _ hv).2
      rw [he, hfm_false] at this
      cases this
    have hAVset : ∀ a, addrVal fs1 (setArr ino w s) a =
        if a = TreeAddr.top w then some s else addrVal fs1 ino a :=
      addrVal_setTop fs1 ino w s hw h0 hszero hsnz
    have hAVset2 : ∀ a, addrVal fs1 (setArr ino w s) a =
        if a = TreeAddr.top w then some s else addrVal fs ino a := by
      intro a
      rw [hAVset a]
      by_cases ha : a = TreeAddr.top w
      · rw [if_pos ha, if_pos ha]
      · rw [if_neg ha, if_neg ha, hAVa]
    refine ⟨s, fs1, heq, ?_, ?_, ?_, hbit, by omega, hmono, ?_, ?_,
      fun _ => hfresh, fun hne => absurd h0 hne⟩
    · exact WF_extend fs1 (setArr ino w s) fs ino R (TreeAddr.top w) s hWF
        hAVset2 hRs hmarked hmono hfresh
        (by rw [hbit]; exact hWF.bitcnt_le) rfl
    · rw [hAVset2 _, if_pos rfl]
    · intro a ha
      rw [hAVset2 a, if_neg ha]
    · intro a σ hleaf hσ o
      have hσs : σ ≠ s := hfresh a σ hσ
      rw [hstore]
      show zeroSector fs.store s σ o = fs.store σ o
      unfold zeroSector
      rw [if_neg hσs]
    · intro _ o
      rw [hstore]
      show zeroSector fs.store s s o = 0
      unfold zeroSector
      rw [if_pos rfl]

/-- load4 of an all-zero sector is 0. -/
theorem load4_zero_of_store_zero (m : Nat → Nat → Nat) (s : Nat)
    (h : ∀ o, m s o = 0) (c : Nat) : load4 m s c = 0 := by
  unfold load4
  rw [h, h, h, h]

/-- Packaging the final inode_write_to_table of sector_fixup_depth: the
    intermediate guarantees carry over to the returned state. -/
theorem byte_to_sector_finish (fs : FS) (ino : Inode) (R k : Nat)
    (fs3 : FS) (ino1 : Inode) (sk : Nat)
    (hWF : WF fs ino R)
    (hWF3 : WF fs3 ino1 R)
    (hk : k < DID_LIMIT)
    (hmap : addrVal fs3 ino1 (leafAddr k) = some sk)
    (hpres : ∀ j σ, j ≠ k → sectorOfIdx fs ino j = some σ →
       addrVal fs3 ino1 (leafAddr j) = some σ)
    (hdata : ∀ j σ, j ≠ k → sectorOfIdx fs ino j = some σ →
       ∀ o, fs3.store σ o = fs.store σ o)
    (hlen : ino1.data.length = ino.data.length)
    (hinum1 : ino1.inumber = ino.inumber)
    (hdeny : ino1.deny_write_cnt = ino.deny_write_cnt)
    (hbit : fs3.bitcnt = fs.bitcnt)
    (hfb : freeBits fs ≤ freeBits fs3 + 3)
    (hmk : ∀ i, fs.freemap i = true → fs3.freemap i = true)
    (hzero : sectorOfIdx fs ino k = none → ∀ o, fs3.store sk o = 0) :
    StepOK fs ino R k
      (sk, inode_write_to_table fs3 ino1.inumber ino1.data, ino1) := by
  obtain ⟨hWFt, hAVt, hstoret, hfmt, hbitt⟩ :=
    inode_write_to_table_spec fs3 ino1 R hWF3 ino1.inumber
      (by rw [hinum1]; exact hWF.inum_lt) ino1.data
  unfold StepOK
  dsimp only
  refine ⟨hWFt, ?_, ?_, ?_, hlen, hinum1, hdeny, by rw [hbitt, hbit],
    ?_, ?_, ?_⟩
  · unfold sectorOfIdx
    rw [if_pos hk, hAVt, hmap]
  · intro j σ hj hσ
    unfold sectorOfIdx
    rw [if_pos (sectorOfIdx_some_lt fs ino hσ), hAVt]
    exact hpres j σ hj hσ
  · intro j σ hj hσ o
    have hσR := (live_of_sectorOfIdx fs ino R j σ hWF hσ).1
    rw [hstoret σ o hσR]
    exact hdata j σ hj hσ o
  · have := freeBits_congr fs3 _ hfmt hbitt
    omega
  · intro i h
    rw [hfmt]
    exact hmk i h
  · intro hnone o
    have hsR : R ≤ sk := (hWFt.live _ _ (by rw [hAVt]; exact hmap)).1
    rw [hstoret sk o hsR]
    exact hzero hnone o

/-- byte_to_sector on a direct index. -/
theorem byte_to_sector_spec_direct (fs : FS) (ino : Inode) (R pos : Nat)
    (hWF : WF fs ino R) (hfree : 3 ≤ freeBits fs)
    (hk : pos / BLOCK_SECTOR_SIZE < DIRECT_LIMIT) :
    StepOK fs ino R (pos / BLOCK_SECTOR_SIZE) (byte_to_sector fs ino pos) := by
  set k := pos / BLOCK_SECTOR_SIZE with hkdef
  obtain ⟨s, fs1, heq, hWF1, hmap1, hpres1, hbit1, hfb1, hmk1, hdata1,
    hzero1, hfresh1, hpure1⟩ :=
    sector_fixup_top_spec fs ino R k hWF (by omega)
      (by rw [max_index_eq]; rw [direct_limit_eq] at hk; omega)
  have hkD : k < DID_LIMIT := by
    rw [did_limit_eq]
    rw [direct_limit_eq] at hk
    omega
  have hla : leafAddr k = TreeAddr.top k := by
    unfold leafAddr
    rw [if_pos hk]
  have heqbs : byte_to_sector fs ino pos =
      (s, inode_write_to_table fs1 (setArr ino k s).inumber
            (setArr ino k s).data, setArr ino k s) := by
    unfold byte_to_sector
    dsimp only
    rw [if_pos hk]
    unfold sector_fixup_depth
    dsimp only
    simp only [Nat.sub_zero, pow_zero, Nat.div_one, Nat.add_zero]
    rw [heq]
    dsimp only
    rw [List.range_zero]
    rfl
  rw [heqbs]
  apply byte_to_sector_finish fs ino R k fs1 (setArr ino k s) s hWF hWF1 hkD
  · rw [hla]
    exact hmap1
  · intro j σ hj hσ
    have hjD := sectorOfIdx_some_lt fs ino hσ
    have hne : leafAddr j ≠ TreeAddr.top k := by
      rw [← hla]
      exact leafAddr_inj j k hjD hkD hj
    rw [hpres1 _ hne]
    unfold sectorOfIdx at hσ
    rw [if_pos hjD] at hσ
    exact hσ
  · intro j σ hj hσ o
    have hjD := sectorOfIdx_some_lt fs ino hσ
    have hσ2 : addrVal fs ino (leafAddr j) = some σ := by
      unfold sectorOfIdx at hσ
      rw [if_pos hjD] at hσ
      exact hσ
    exact hdata1 _ σ (isLeafAddr_leafAddr j) hσ2 o
  · rfl
  · rfl
  · rfl
  · exact hbit1
  · omega
  · exact hmk1
  · intro hnone o
    have harr0 : ino.data.arr k = 0 := by
      unfold sectorOfIdx at hnone
      rw [if_pos hkD, hla] at hnone
      simp only [addrVal] at hnone
      rw [if_pos (by rw [max_index_eq]; rw [direct_limit_eq] at hk; omega)]
        at hnone
      exact nz_eq_none.mp hnone
    exact hzero1 harr0 o

/-- A leaf address is never a top slot at or past DIRECT_LIMIT. -/
theorem leafAddr_ne_top_high (j w : Nat) (hw : DIRECT_LIMIT ≤ w) :
    leafAddr j ≠ TreeAddr.top w := by
  intro he
  have := isLeafAddr_leafAddr j
  rw [he] at this
  simp only [isLeafAddr] at this
  omega

/-- A leaf address is never a mid address. -/
theorem leafAddr_ne_mid (j c1 : Nat) : leafAddr j ≠ TreeAddr.mid c1 := by
  intro he
  have := isLeafAddr_leafAddr j
  rw [he] at this
  simp only [isLeafAddr] at this

/-- Composition of the two resolution steps of a single-indirect lookup
    with the final table write. -/
theorem stepOK_sid_assemble (fs : FS) (ino : Inode) (R k w c : Nat)
    (hWF : WF fs ino R) (hfree : 3 ≤ freeBits fs)
    (hkD : k < DID_LIMIT)
    (hw56 : w = 5 ∨ w = 6) (hcN : c < NUM_PER_SECTOR)
    (hla : leafAddr k = TreeAddr.sid w c) :
    ∃ t fs1 u fs3,
      sector_fixup fs (ino.data.arr w) = some (t, fs1) ∧
      sector_fixup_disk fs1 t c = some (u, fs3) ∧
      StepOK fs ino R k
        (u, inode_write_to_table fs3 (setArr ino w t).inumber
              (setArr ino w t).data, setArr ino w t) := by
  obtain ⟨t, fs1, heq, hWF1, hmapT, hpresT, hbit1, hfb1, hmk1, hdataT,
    hzeroT, hfreshT, hpureT⟩ :=
    sector_fixup_top_spec fs ino R w hWF (by omega)
      (by rw [max_index_eq]; omega)
  obtain ⟨u, fs3, heqD, hWF3, hmapC, hpresC, hbit3, hfb3, hmk3, hdataC,
    hzeroC, hfreshC, hpureC⟩ :=
    sector_fixup_disk_spec fs1 (setArr ino w t) R (TreeAddr.top w)
      (TreeAddr.sid w c) t c hWF1 (by omega) hmapT hcN
      (by simp only [isLeafAddr, direct_limit_eq]; omega)
      (Or.inl ⟨w, rfl, hw56, rfl⟩)
  refine ⟨t, fs1, u, fs3, heq, heqD, ?_⟩
  apply byte_to_sector_finish fs ino R k fs3 (setArr ino w t) u hWF hWF3 hkD
  · rw [hla]
    exact hmapC
  · intro j σ hj hσ
    have hjD := sectorOfIdx_some_lt fs ino hσ
    have hσ2 : addrVal fs ino (leafAddr j) = some σ := by
      unfold sectorOfIdx at hσ
      rw [if_pos hjD] at hσ
      exact hσ
    have hnet : leafAddr j ≠ TreeAddr.top w :=
      leafAddr_ne_top_high j w (by rw [direct_limit_eq]; omega)
    have hnec : leafAddr j ≠ TreeAddr.sid w c := by
      rw [← hla]
      exact leafAddr_inj j k hjD hkD hj
    rw [hpresC _ hnec, hpresT _ hnet]
    exact hσ2
  · intro j σ hj hσ o
    have hjD := sectorOfIdx_some_lt fs ino hσ
    have hσ2 : addrVal fs ino (leafAddr j) = some σ := by
      unfold sectorOfIdx at hσ
      rw [if_pos hjD] at hσ
      exact hσ
    have hnet : leafAddr j ≠ TreeAddr.top w :=
      leafAddr_ne_top_high j w (by rw [direct_limit_eq]; omega)
    have hσ1 : addrVal fs1 (setArr ino w t) (leafAddr j) = some σ := by
      rw [hpresT _ hnet]
      exact hσ2
    rw [hdataC _ σ (isLeafAddr_leafAddr j) hσ1 o]
    exact hdataT _ σ (isLeafAddr_leafAddr j) hσ2 o
  · rfl
  · rfl
  · rfl
  · rw [hbit3, hbit1]
  · omega
  · intro i h
    exact hmk3 i (hmk1 i h)
  · intro hnone o
    have hnone2 : addrVal fs ino (TreeAddr.sid w c) = none := by
      unfold sectorOfIdx at hnone
      rw [if_pos hkD, hla] at hnone
      exact hnone
    simp only [addrVal] at hnone2
    rw [if_pos ⟨hw56, hcN⟩] at hnone2
    by_cases h0 : ino.data.arr w = 0
    · have hz1 : ∀ o2, fs1.store t o2 = 0 := hzeroT h0
      exact hzeroC (load4_zero_of_store_zero _ _ hz1 c) o
    · obtain ⟨hteq, hfs1⟩ := hpureT h0
      rw [show nz (ino.data.arr w) = some (ino.data.arr w) from
        by simp [nz, h0]] at hnone2
      simp only [Option.some_bind] at hnone2
      have hcell0 : load4 fs.store (ino.data.arr w) c = 0 :=
        nz_eq_none.mp hnone2
      have hl0 : load4 fs1.store t c = 0 := by
        rw [hfs1, hteq]
        exact hcell0
      exact hzeroC hl0 o

/-- Composition of the three resolution steps of a doubly-indirect lookup
    with the final table write. -/
theorem stepOK_did_assemble (fs : FS) (ino : Inode) (R k c1 c2 : Nat)
    (hWF : WF fs ino R) (hfree : 3 ≤ freeBits fs)
    (hkD : k < DID_LIMIT)
    (hc1 : c1 < NUM_PER_SECTOR) (hc2 : c2 < NUM_PER_SECTOR)
    (hla : leafAddr k = TreeAddr.dleaf c1 c2) :
    ∃ t fs1 m fs3 u fs5,
      sector_fixup fs (ino.data.arr DID_INDEX) = some (t, fs1) ∧
      sector_fixup_disk fs1 t c1 = some (m, fs3) ∧
      sector_fixup_disk fs3 m c2 = some (u, fs5) ∧
      StepOK fs ino R k
        (u, inode_write_to_table fs5 (setArr ino DID_INDEX t).inumber
              (setArr ino DID_INDEX t).data, setArr ino DID_INDEX t) := by
  obtain ⟨t, fs1, heq, hWF1, hmapT, hpresT, hbit1, hfb1, hmk1, hdataT,
    hzeroT, hfreshT, hpureT⟩ :=
    sector_fixup_top_spec fs ino R DID_INDEX hWF (by omega)
      (by rw [max_index_eq, did_index_eq]; omega)
  obtain ⟨m, fs3, heqD1, hWF3, hmapM, hpresC1, hbit3, hfb3, hmk3, hdataC1,
    hzeroC1, hfreshC1, hpureC1⟩ :=
    sector_fixup_disk_spec fs1 (setArr ino DID_INDEX t) R
      (TreeAddr.top DID_INDEX) (TreeAddr.mid c1) t c1 hWF1 (by omega)
      hmapT hc1
      (by simp only [isLeafAddr, direct_limit_eq, did_index_eq]; omega)
      (Or.inr (Or.inl ⟨rfl, rfl⟩))
  obtain ⟨u, fs5, heqD2, hWF5, hmapU, hpresC2, hbit5, hfb5, hmk5, hdataC2,
    hzeroC2, hfreshC2, hpureC2⟩ :=
    sector_fixup_disk_spec fs3 (setArr ino DID_INDEX t) R
      (TreeAddr.mid c1) (TreeAddr.dleaf c1 c2) m c2 hWF3 (by omega)
      hmapM hc2
      (by simp only [isLeafAddr]; exact not_false)
      (Or.inr (Or.inr ⟨c1, rfl, hc1, rfl⟩))
  refine ⟨t, fs1, m, fs3, u, fs5, heq, heqD1, heqD2, ?_⟩
  apply byte_to_sector_finish fs ino R k fs5 (setArr ino DID_INDEX t) u
    hWF hWF5 hkD
  · rw [hla]
    exact hmapU
  · intro j σ hj hσ
    have hjD := sectorOfIdx_some_lt fs ino hσ
    have hσ2 : addrVal fs ino (leafAddr j) = some σ := by
      unfold sectorOfIdx at hσ
      rw [if_pos hjD] at hσ
      exact hσ
    have hnet : leafAddr j ≠ TreeAddr.top DID_INDEX :=
      leafAddr_ne_top_high j DID_INDEX
        (by rw [direct_limit_eq, did_index_eq]; omega)
    have hnem : leafAddr j ≠ TreeAddr.mid c1 := leafAddr_ne_mid j c1
    have hned : leafAddr j ≠ TreeAddr.dleaf c1 c2 := by
      rw [← hla]
      exact leafAddr_inj j k hjD hkD hj
    rw [hpresC2 _ hned, hpresC1 _ hnem, hpresT _ hnet]
    exact hσ2
  · intro j σ hj hσ o
    have hjD := sectorOfIdx_some_lt fs ino hσ
    have hσ2 : addrVal fs ino (leafAddr j) = some σ := by
      unfold sectorOfIdx at hσ
      rw [if_pos hjD] at hσ
      exact hσ
    have hnet : leafAddr j ≠ TreeAddr.top DID_INDEX :=
      leafAddr_ne_top_high j DID_INDEX
        (by rw [direct_limit_eq, did_index_eq]; omega)
    have hnem : leafAddr j ≠ TreeAddr.mid c1 := leafAddr_ne_mid j c1
    have hσ1 : addrVal fs1 (setArr ino DID_INDEX t) (leafAddr j) =
        some σ := by
      rw [hpresT _ hnet]
      exact hσ2
    have hσ3 : addrVal fs3 (setArr ino DID_INDEX t) (leafAddr j) =
        some σ := by
      rw [hpresC1 _ hnem]
      exact hσ1
    rw [hdataC2 _ σ (isLeafAddr_leafAddr j) hσ3 o]
    rw [hdataC1 _ σ (isLeafAddr_leafAddr j) hσ1 o]
    exact hdataT _ σ (isLeafAddr_leafAddr j) hσ2 o
  · rfl
  · rfl
  · rfl
  · rw [hbit5, hbit3, hbit1]
  · omega
  · intro i h
    exact hmk5 i (hmk3 i (hmk1 i h))
  · intro hnone o
    have hnone2 : addrVal fs ino (TreeAddr.dleaf c1 c2) = none := by
      unfold sectorOfIdx at hnone
      rw [if_pos hkD, hla] at hnone
      exact hnone
    simp only [addrVal] at hnone2
    rw [if_pos ⟨hc1, hc2⟩] at hnone2
    by_cases h0 : ino.data.arr DID_INDEX = 0
    · have hz1 : ∀ o2, fs1.store t o2 = 0 := hzeroT h0
      have hl1 : load4 fs1.store t c1 = 0 :=
        load4_zero_of_store_zero _ _ hz1 c1
      have hz3 : ∀ o2, fs3.store m o2 = 0 := hzeroC1 hl1
      exact hzeroC2 (load4_zero_of_store_zero _ _ hz3 c2) o
    · obtain ⟨hteq, hfs1⟩ := hpureT h0
      rw [show nz (ino.data.arr DID_INDEX) =
        some (ino.data.arr DID_INDEX) from by simp [nz, h0]] at hnone2
      simp only [Option.some_bind] at hnone2
      by_cases hm0 : load4 fs.store (ino.data.arr DID_INDEX) c1 = 0
      · have hl1 : load4 fs1.store t c1 = 0 := by
          rw [hfs1, hteq]
          exact hm0
        have hz3 : ∀ o2, fs3.store m o2 = 0 := hzeroC1 hl1
        exact hzeroC2 (load4_zero_of_store_zero _ _ hz3 c2) o
      · rw [show nz (load4 fs.store (ino.data.arr DID_INDEX) c1) =
          some (load4 fs.store (ino.data.arr DID_INDEX) c1) from
          by simp [nz, hm0]] at hnone2
        simp only [Option.some_bind] at hnone2
        have hcell20 : load4 fs.store
            (load4 fs.store (ino.data.arr DID_INDEX) c1) c2 = 0 :=
          nz_eq_none.mp hnone2
        have hl1ne : load4 fs1.store t c1 ≠ 0 := by
          rw [hfs1, hteq]
          exact hm0
        obtain ⟨hmeq, hfs3⟩ := hpureC1 hl1ne
        have hl0 : load4 fs3.store m c2 = 0 := by
          rw [hfs3, hfs1, hmeq, hfs1, hteq]
          exact hcell20
        exact hzeroC2 hl0 o

/-- byte_to_sector on a singly-indirect index: the fix-up chain of depth 1
    resolves (or allocates) the index sector and the data sector and the
    result satisfies the one-step contract. -/
theorem byte_to_sector_spec_sid (fs : FS) (ino : Inode) (R pos : Nat)
    (hWF : WF fs ino R) (hfree : 3 ≤ freeBits fs)
    (hk1 : DIRECT_LIMIT ≤ pos / BLOCK_SECTOR_SIZE)
    (hk2 : pos / BLOCK_SECTOR_SIZE < SID_LIMIT) :
    StepOK fs ino R (pos / BLOCK_SECTOR_SIZE) (byte_to_sector fs ino pos) := by
  set k := pos / BLOCK_SECTOR_SIZE with hkdef
  have hkD : k < DID_LIMIT := by
    rw [did_limit_eq]
    rw [sid_limit_eq] at hk2
    omega
  have hw56 : (k - DIRECT_LIMIT) / NUM_PER_SECTOR + SID_INDEX = 5 ∨
      (k - DIRECT_LIMIT) / NUM_PER_SECTOR + SID_INDEX = 6 := by
    rw [nps_eq, sid_index_eq, direct_limit_eq]
    rw [direct_limit_eq] at hk1
    rw [sid_limit_eq] at hk2
    have hlt : (k - 5) / 128 < 2 :=
      Nat.div_lt_of_lt_mul (show k - 5 < 128 * 2 by omega)
    omega
  have hcN : (k - DIRECT_LIMIT) % NUM_PER_SECTOR < NUM_PER_SECTOR :=
    Nat.mod_lt _ (by rw [nps_eq]; omega)
  have hla : leafAddr k =
      TreeAddr.sid ((k - DIRECT_LIMIT) / NUM_PER_SECTOR + SID_INDEX)
        ((k - DIRECT_LIMIT) % NUM_PER_SECTOR) := by
    unfold leafAddr
    rw [if_neg (Nat.not_lt.mpr hk1), if_pos hk2]
  obtain ⟨t, fs1, u, fs3, heq, heqD, hstep⟩ :=
    stepOK_sid_assemble fs ino R k
      ((k - DIRECT_LIMIT) / NUM_PER_SECTOR + SID_INDEX)
      ((k - DIRECT_LIMIT) % NUM_PER_SECTOR)
      hWF hfree hkD hw56 hcN hla
  have heqbs : byte_to_sector fs ino pos =
      (u, inode_write_to_table fs3
            (setArr ino ((k - DIRECT_LIMIT) / NUM_PER_SECTOR + SID_INDEX)
               t).inumber
            (setArr ino ((k - DIRECT_LIMIT) / NUM_PER_SECTOR + SID_INDEX)
               t).data,
          setArr ino ((k - DIRECT_LIMIT) / NUM_PER_SECTOR + SID_INDEX) t) := by
    unfold byte_to_sector
    dsimp only
    rw [if_neg (Nat.not_lt.mpr hk1), if_pos hk2]
    unfold sector_fixup_depth
    dsimp only
    simp only [pow_one]
    rw [heq]
    dsimp only
    rw [show List.range 1 = [0] from rfl]
    simp only [fixup_chain, Nat.sub_self, Nat.sub_zero, pow_zero, Nat.div_one]
    rw [heqD]
  rw [heqbs]
  exact hstep

/-- byte_to_sector on a doubly-indirect index: the fix-up chain of depth 2
    resolves (or allocates) both index sectors and the data sector and the
    result satisfies the one-step contract. -/
theorem byte_to_sector_spec_did (fs : FS) (ino : Inode) (R pos : Nat)
    (hWF : WF fs ino R) (hfree : 3 ≤ freeBits fs)
    (hk1 : SID_LIMIT ≤ pos / BLOCK_SECTOR_SIZE)
    (hk2 : pos / BLOCK_SECTOR_SIZE < DID_LIMIT) :
    StepOK fs ino R (pos / BLOCK_SECTOR_SIZE) (byte_to_sector fs ino pos) := by
  set k := pos / BLOCK_SECTOR_SIZE with hkdef
  have hkd1 : DIRECT_LIMIT ≤ k :=
    le_trans (by rw [direct_limit_eq, sid_limit_eq]; omega) hk1
  have hidxlt : k - SID_LIMIT < NUM_PER_SECTOR * NUM_PER_SECTOR := by
    rw [nps_eq, sid_limit_eq]
    rw [did_limit_eq] at hk2
    omega
  have hidx0 : (k - SID_LIMIT) / NUM_PER_SECTOR ^ 2 = 0 :=
    Nat.div_eq_of_lt (by rw [pow_two]; exact hidxlt)
  have hdivlt : (k - SID_LIMIT) / NUM_PER_SECTOR < NUM_PER_SECTOR :=
    Nat.div_lt_of_lt_mul hidxlt
  have hc2 : (k - SID_LIMIT) % NUM_PER_SECTOR < NUM_PER_SECTOR :=
    Nat.mod_lt _ (by rw [nps_eq]; omega)
  have hla : leafAddr k =
      TreeAddr.dleaf ((k - SID_LIMIT) / NUM_PER_SECTOR)
        ((k - SID_LIMIT) % NUM_PER_SECTOR) := by
    unfold leafAddr
    rw [if_neg (Nat.not_lt.mpr hkd1), if_neg (Nat.not_lt.mpr hk1)]
  obtain ⟨t, fs1, m, fs3, u, fs5, heq, heqD1, heqD2, hstep⟩ :=
    stepOK_did_assemble fs ino R k
      ((k - SID_LIMIT) / NUM_PER_SECTOR) ((k - SID_LIMIT) % NUM_PER_SECTOR)
      hWF hfree hk2 hdivlt hc2 hla
  have heqbs : byte_to_sector fs ino pos =
      (u, inode_write_to_table fs5 (setArr ino DID_INDEX t).inumber
            (setArr ino DID_INDEX t).data, setArr ino DID_INDEX t) := by
    unfold byte_to_sector
    dsimp only
    rw [if_neg (Nat.not_lt.mpr hkd1), if_neg (Nat.not_lt.mpr hk1),
      if_pos hk2]
    unfold sector_fixup_depth
    dsimp only
    rw [show (k - SID_LIMIT) / NUM_PER_SECTOR ^ 2 + DID_INDEX = DID_INDEX
      from by rw [hidx0, Nat.zero_add]]
    rw [heq]
    dsimp only
    rw [show List.range 2 = [0, 1] from rfl]
    simp only [fixup_chain, show 2 - 1 - 0 = 1 from rfl,
      show 2 - 1 - 1 = 0 from rfl, pow_one, pow_zero, Nat.div_one]
    rw [Nat.mod_eq_of_lt hdivlt]
    rw [heqD1]
    dsimp only
    rw [heqD2]
  rw [heqbs]
  exact hstep

/-- byte_to_sector satisfies the one-step contract on every in-range
    offset, regardless of tier. -/
theorem byte_to_sector_spec (fs : FS) (ino : Inode) (R pos : Nat)
    (hWF : WF fs ino R) (hfree : 3 ≤ freeBits fs)
    (hkD : pos / BLOCK_SECTOR_SIZE < DID_LIMIT) :
    StepOK fs ino R (pos / BLOCK_SECTOR_SIZE) (byte_to_sector fs ino pos) := by
  by_cases h1 : pos / BLOCK_SECTOR_SIZE < DIRECT_LIMIT
  · exact byte_to_sector_spec_direct fs ino R pos hWF hfree h1
  · by_cases h2 : pos / BLOCK_SECTOR_SIZE < SID_LIMIT
    · exact byte_to_sector_spec_sid fs ino R pos hWF hfree
        (Nat.not_lt.mp h1) h2
    · exact byte_to_sector_spec_did fs ino R pos hWF hfree
        (Nat.not_lt.mp h2) hkD

/-- Writing data bytes into a sector that backs a leaf address changes no
    pointer cell addrVal reads, hence no address's value. -/
theorem addrVal_leaf_write (fs : FS) (ino : Inode) (R k u : Nat)
    (hWF : WF fs ino R)
    (hmap : addrVal fs ino (leafAddr k) = some u)
    (buf : List Nat) (ofs : Nat) :
    ∀ a, addrVal (cache_sector_write fs u buf ofs) ino a =
      addrVal fs ino a := by
  have hne : ∀ aI t, addrVal fs ino aI = some t → ¬isLeafAddr aI →
      t ≠ u := by
    intro aI t hAV hnl
    apply vals_ne fs ino R hWF hAV hmap
    intro he
    rw [he] at hnl
    exact hnl (isLeafAddr_leafAddr k)
  intro a
  cases a with
  | top w => rfl
  | sid w c =>
      simp only [cache_sector_write, addrVal]
      split
      next hg =>
        have hw8 : w < 8 := by
          rcases hg.1 with h | h <;> subst h <;> omega
        have hwge : ¬ w < DIRECT_LIMIT := by
          rw [direct_limit_eq]
          rcases hg.1 with h | h <;> subst h <;> omega
        cases hnz : nz (ino.data.arr w) with
        | none => rfl
        | some t =>
          simp only [Option.some_bind]
          have ht : addrVal fs ino (TreeAddr.top w) = some t := by
            simp only [addrVal]
            rw [if_pos (by rw [max_index_eq]; omega), hnz]
          have htu : t ≠ u := hne _ t ht (by
            simp only [isLeafAddr]
            exact hwge)
          rw [load4_writeBytes_ne_sector _ _ _ _ _ _ htu]
      next hg => rfl
  | mid c =>
      simp only [cache_sector_write, addrVal]
      split
      next hg =>
        cases hnz : nz (ino.data.arr DID_INDEX) with
        | none => rfl
        | some t =>
          simp only [Option.some_bind]
          have ht : addrVal fs ino (TreeAddr.top DID_INDEX) = some t := by
            simp only [addrVal]
            rw [if_pos (by rw [max_index_eq, did_index_eq]; omega), hnz]
          have htu : t ≠ u := hne _ t ht (by
            simp only [isLeafAddr, did_index_eq, direct_limit_eq]
            omega)
          rw [load4_writeBytes_ne_sector _ _ _ _ _ _ htu]
      next hg => rfl
  | dleaf c1 c2 =>
      simp only [cache_sector_write, addrVal]
      split
      next hg =>
        cases hnz : nz (ino.data.arr DID_INDEX) with
        | none => rfl
        | some t =>
          simp only [Option.some_bind]
          have ht : addrVal fs ino (TreeAddr.top DID_INDEX) = some t := by
            simp only [addrVal]
            rw [if_pos (by rw [max_index_eq, did_index_eq]; omega), hnz]
          have htu : t ≠ u := hne _ t ht (by
            simp only [isLeafAddr, did_index_eq, direct_limit_eq]
            omega)
          rw [load4_writeBytes_ne_sector _ _ _ _ _ _ htu]
          cases hm : nz (load4 fs.store t c1) with
          | none => rfl
          | some m =>
            simp only [Option.some_bind]
            have hmv : addrVal fs ino (TreeAddr.mid c1) = some m := by
              simp only [addrVal]
              rw [if_pos hg.1, hnz]
              simp only [Option.some_bind]
              rw [hm]
            have hmu : m ≠ u := hne _ m hmv
              (by simp only [isLeafAddr]; exact not_false)
            rw [load4_writeBytes_ne_sector _ _ _ _ _ _ hmu]
      next hg => rfl

/-- addrVal ignores every inode field other than the block array. -/
theorem addrVal_arr_congr (fs : FS) (ino ino2 : Inode)
    (harr : ino2.data.arr = ino.data.arr) :
    ∀ a, addrVal fs ino2 a = addrVal fs ino a := by
  intro a
  cases a <;> simp only [addrVal, harr]

/-- When the index of an offset is already mapped, byte_to_sector follows
    only pure pointer dereferences: it returns the mapped sector, leaves
    the inode unchanged, and only rewrites the inode-table entry. -/
theorem byte_to_sector_pure (fs : FS) (ino : Inode) (pos σ : Nat)
    (hmap : sectorOfIdx fs ino (pos / BLOCK_SECTOR_SIZE) = some σ) :
    byte_to_sector fs ino pos =
      (σ, inode_write_to_table fs ino.inumber ino.data, ino) := by
  set k := pos / BLOCK_SECTOR_SIZE with hkdef
  have hkD : k < DID_LIMIT := sectorOfIdx_some_lt fs ino hmap
  have hAV : addrVal fs ino (leafAddr k) = some σ := by
    unfold sectorOfIdx at hmap
    rw [if_pos hkD] at hmap
    exact hmap
  by_cases h1 : k < DIRECT_LIMIT
  · have hla : leafAddr k = TreeAddr.top k := by
      unfold leafAddr
      rw [if_pos h1]
    rw [hla] at hAV
    simp only [addrVal] at hAV
    rw [if_pos (show k < MAX_INDEX from by
      rw [max_index_eq]; rw [direct_limit_eq] at h1; omega)] at hAV
    obtain ⟨hσeq, hnz⟩ := nz_eq_some.mp hAV
    unfold byte_to_sector
    dsimp only
    rw [if_pos h1]
    unfold sector_fixup_depth
    dsimp only
    simp only [Nat.sub_zero, pow_zero, Nat.div_one, Nat.add_zero]
    rw [show sector_fixup fs (ino.data.arr k) = some (ino.data.arr k, fs)
      from by unfold sector_fixup; rw [if_neg hnz]]
    dsimp only
    rw [List.range_zero]
    simp only [fixup_chain]
    rw [setArr_self, hσeq]
  · by_cases h2 : k < SID_LIMIT
    · have hla : leafAddr k =
          TreeAddr.sid ((k - DIRECT_LIMIT) / NUM_PER_SECTOR + SID_INDEX)
            ((k - DIRECT_LIMIT) % NUM_PER_SECTOR) := by
        unfold leafAddr
        rw [if_neg h1, if_pos h2]
      have hw56 : (k - DIRECT_LIMIT) / NUM_PER_SECTOR + SID_INDEX = 5 ∨
          (k - DIRECT_LIMIT) / NUM_PER_SECTOR + SID_INDEX = 6 := by
        rw [nps_eq, sid_index_eq, direct_limit_eq]
        rw [direct_limit_eq] at h1
        rw [sid_limit_eq] at h2
        have hlt : (k - 5) / 128 < 2 :=
          Nat.div_lt_of_lt_mul (show k - 5 < 128 * 2 by omega)
        omega
      have hcN : (k - DIRECT_LIMIT) % NUM_PER_SECTOR < NUM_PER_SECTOR :=
        Nat.mod_lt _ (by rw [nps_eq]; omega)
      rw [hla] at hAV
      simp only [addrVal] at hAV
      rw [if_pos ⟨hw56, hcN⟩] at hAV
      have harrnz : ino.data.arr
          ((k - DIRECT_LIMIT) / NUM_PER_SECTOR + SID_INDEX) ≠ 0 := by
        intro h0
        rw [nz_eq_none.mpr h0] at hAV
        simp only [Option.none_bind] at hAV
        cases hAV
      rw [show nz (ino.data.arr
          ((k - DIRECT_LIMIT) / NUM_PER_SECTOR + SID_INDEX)) =
        some (ino.data.arr
          ((k - DIRECT_LIMIT) / NUM_PER_SECTOR + SID_INDEX)) from
        by simp [nz, harrnz]] at hAV
      simp only [Option.some_bind] at hAV
      obtain ⟨hload, hloadnz⟩ := nz_eq_some.mp hAV
      have hσnz : σ ≠ 0 := hload ▸ hloadnz
      unfold byte_to_sector
      dsimp only
      rw [if_neg h1, if_pos h2]
      unfold sector_fixup_depth
      dsimp only
      simp only [pow_one]
      rw [show sector_fixup fs (ino.data.arr
          ((k - DIRECT_LIMIT) / NUM_PER_SECTOR + SID_INDEX)) =
        some (ino.data.arr
          ((k - DIRECT_LIMIT) / NUM_PER_SECTOR + SID_INDEX), fs) from
        by unfold sector_fixup; rw [if_neg harrnz]]
      dsimp only
      rw [show List.range 1 = [0] from rfl]
      simp only [fixup_chain, Nat.sub_self, Nat.sub_zero, pow_zero,
        Nat.div_one]
      rw [show sector_fixup_disk fs (ino.data.arr
          ((k - DIRECT_LIMIT) / NUM_PER_SECTOR + SID_INDEX))
          ((k - DIRECT_LIMIT) % NUM_PER_SECTOR) = some (σ, fs) from by
        unfold sector_fixup_disk
        dsimp only
        rw [hload]
        rw [show sector_fixup fs σ = some (σ, fs) from
          by unfold sector_fixup; rw [if_neg hσnz]]
        dsimp only
        rw [if_neg hσnz]]
      simp only [fixup_chain]
      rw [setArr_self]
    · have hla : leafAddr k =
          TreeAddr.dleaf ((k - SID_LIMIT) / NUM_PER_SECTOR)
            ((k - SID_LIMIT) % NUM_PER_SECTOR) := by
        unfold leafAddr
        rw [if_neg h1, if_neg h2]
      have hdivlt : (k - SID_LIMIT) / NUM_PER_SECTOR < NUM_PER_SECTOR := by
        apply Nat.div_lt_of_lt_mul
        rw [nps_eq, sid_limit_eq]
        rw [did_limit_eq] at hkD
        omega
      have hc2 : (k - SID_LIMIT) % NUM_PER_SECTOR < NUM_PER_SECTOR :=
        Nat.mod_lt _ (by rw [nps_eq]; omega)
      rw [hla] at hAV
      simp only [addrVal] at hAV
      rw [if_pos ⟨hdivlt, hc2⟩] at hAV
      have harrnz : ino.data.arr DID_INDEX ≠ 0 := by
        intro h0
        rw [nz_eq_none.mpr h0] at hAV
        simp only [Option.none_bind] at hAV
        cases hAV
      rw [show nz (ino.data.arr DID_INDEX) =
        some (ino.data.arr DID_INDEX) from by simp [nz, harrnz]] at hAV
      simp only [Option.some_bind] at hAV
      have hm0nz : load4 fs.store (ino.data.arr DID_INDEX)
          ((k - SID_LIMIT) / NUM_PER_SECTOR) ≠ 0 := by
        intro h0
        rw [nz_eq_none.mpr h0] at hAV
        simp only [Option.none_bind] at hAV
        cases hAV
      rw [show nz (load4 fs.store (ino.data.arr DID_INDEX)
          ((k - SID_LIMIT) / NUM_PER_SECTOR)) =
        some (load4 fs.store (ino.data.arr DID_INDEX)
          ((k - SID_LIMIT) / NUM_PER_SECTOR)) from
        by simp [nz, hm0nz]] at hAV
      simp only [Option.some_bind] at hAV
      obtain ⟨hload2, hload2nz⟩ := nz_eq_some.mp hAV
      have hσnz : σ ≠ 0 := hload2 ▸ hload2nz
      have hidx0 : (k - SID_LIMIT) / NUM_PER_SECTOR ^ 2 = 0 := by
        apply Nat.div_eq_of_lt
        rw [nps_eq, sid_limit_eq]
        rw [did_limit_eq] at hkD
        norm_num
        omega
      unfold byte_to_sector
      dsimp only
      rw [if_neg h1, if_neg h2, if_pos hkD]
      unfold sector_fixup_depth
      dsimp only
      rw [show (k - SID_LIMIT) / NUM_PER_SECTOR ^ 2 + DID_INDEX = DID_INDEX
        from by rw [hidx0, Nat.zero_add]]
      rw [show sector_fixup fs (ino.data.arr DID_INDEX) =
        some (ino.data.arr DID_INDEX, fs) from
        by unfold sector_fixup; rw [if_neg harrnz]]
      dsimp only
      rw [show List.range 2 = [0, 1] from rfl]
      simp only [fixup_chain, show 2 - 1 - 0 = 1 from rfl,
        show 2 - 1 - 1 = 0 from rfl, pow_one, pow_zero, Nat.div_one]
      rw [Nat.mod_eq_of_lt hdivlt]
      rw [show sector_fixup_disk fs (ino.data.arr DID_INDEX)
          ((k - SID_LIMIT) / NUM_PER_SECTOR) =
        some (load4 fs.store (ino.data.arr DID_INDEX)
          ((k - SID_LIMIT) / NUM_PER_SECTOR), fs) from by
        unfold sector_fixup_disk
        dsimp only
        rw [show sector_fixup fs (load4 fs.store (ino.data.arr DID_INDEX)
            ((k - SID_LIMIT) / NUM_PER_SECTOR)) =
          some (load4 fs.store (ino.data.arr DID_INDEX)
            ((k - SID_LIMIT) / NUM_PER_SECTOR), fs) from
          by unfold sector_fixup; rw [if_neg hm0nz]]
        dsimp only
        rw [if_neg hm0nz]]
      dsimp only
      rw [show sector_fixup_disk fs (load4 fs.store
          (ino.data.arr DID_INDEX) ((k - SID_LIMIT) / NUM_PER_SECTOR))
          ((k - SID_LIMIT) % NUM_PER_SECTOR) = some (σ, fs) from by
        unfold sector_fixup_disk
        dsimp only
        rw [hload2]
        rw [show sector_fixup fs σ = some (σ, fs) from
          by unfold sector_fixup; rw [if_neg hσnz]]
        dsimp only
        rw [if_neg hσnz]]
      simp only [fixup_chain]
      rw [setArr_self]

/-- Indexing into a drop-then-take window of a list. -/
theorem getD_drop_take (l : List Nat) (n m p : Nat) (hp : p < m) :
    ((l.drop n).take m).getD p 0 = l.getD (n + p) 0 := by
  rw [List.getD_eq_getElem?_getD, List.getD_eq_getElem?_getD]
  rw [List.getElem?_take, if_pos hp, List.getElem?_drop]

/-- The write loop establishes its postcondition whenever the window stays
    below the doubly-indirect limit, the free map has three sectors per
    remaining byte, and the buffer covers the window. -/
theorem inode_write_at_loop_spec (fuel : Nat) :
    ∀ fs ino buffer size offset bw R,
    WF fs ino R → size ≤ fuel →
    offset + size ≤ DID_LIMIT * BLOCK_SECTOR_SIZE →
    bw + size ≤ buffer.length →
    3 * size ≤ freeBits fs →
    WritePost fs ino buffer size offset bw R
      (inode_write_at_loop fuel fs ino buffer size offset bw) := by
  induction fuel with
  | zero =>
      intro fs ino buffer size offset bw R hWF hsz hofs hbuf hfree
      have hs0 : size = 0 := Nat.le_zero.mp hsz
      subst hs0
      unfold WritePost
      exact ⟨rfl, hWF, rfl, fun _ => ⟨rfl, rfl⟩,
        fun h => absurd h (by omega),
        fun j σ hj hσ => ⟨hσ, fun o => rfl⟩,
        fun p hp => absurd hp (by omega)⟩
  | succ fuel ih =>
      intro fs ino buffer size offset bw R hWF hsz hofs hbuf hfree
      by_cases hs0 : size = 0
      · subst hs0
        have hres : inode_write_at_loop (fuel + 1) fs ino buffer 0 offset bw
            = (bw, fs, ino) := by
          simp [inode_write_at_loop]
        unfold WritePost
        rw [hres]
        exact ⟨rfl, hWF, rfl, fun _ => ⟨rfl, rfl⟩,
          fun h => absurd h (by omega),
          fun j σ hj hσ => ⟨hσ, fun o => rfl⟩,
          fun p hp => absurd hp (by omega)⟩
      · set k0 := offset / BLOCK_SECTOR_SIZE with hk0
        set sofs := offset % BLOCK_SECTOR_SIZE with hsofs
        set chunk := min size (BLOCK_SECTOR_SIZE - sofs) with hchunk
        have hsofslt : sofs < BLOCK_SECTOR_SIZE := by
          rw [hsofs]
          exact Nat.mod_lt _ (by rw [bss_eq]; omega)
        have hchunk1 : 1 ≤ chunk := by
          rw [hchunk]
          omega
        have hchunkle : chunk ≤ size := by
          rw [hchunk]
          exact Nat.min_le_left _ _
        have hkD : k0 < DID_LIMIT := by
          rw [hk0, bss_eq, did_limit_eq]
          rw [bss_eq, did_limit_eq] at hofs
          omega
        have hfree3 : 3 ≤ freeBits fs := by omega
        have hstep := byte_to_sector_spec fs ino R offset hWF hfree3 hkD
        rcases hr : byte_to_sector fs ino offset with ⟨u, fsA, inoA⟩
        rw [hr] at hstep
        unfold StepOK at hstep
        dsimp only at hstep
        obtain ⟨hWFA, hmapA, hpresA, hdataA, hlenA, hinumA, hdenyA, hbitA,
          hfbA, hmkA, hzeroA⟩ := hstep
        have hRu : R ≤ u := (live_of_sectorOfIdx fsA inoA R k0 u hWFA
          hmapA).1
        have hAVmapA : addrVal fsA inoA (leafAddr k0) = some u := by
          unfold sectorOfIdx at hmapA
          rw [if_pos hkD] at hmapA
          exact hmapA
        set cb := (buffer.drop bw).take chunk with hcb
        set fs1 := cache_sector_write fsA u cb sofs with hfs1
        have hAV1 : ∀ a, addrVal fs1 inoA a = addrVal fsA inoA a := by
          rw [hfs1]
          exact addrVal_leaf_write fsA inoA R k0 u hWFA hAVmapA cb sofs
        have hWF1 : WF fs1 inoA R :=
          WF_of_addrVal_eq fsA fs1 inoA inoA R hWFA hAV1 (fun i h => h)
            hWFA.bitcnt_le rfl
        have hmapSI1 : ∀ j, sectorOfIdx fs1 inoA j =
            sectorOfIdx fsA inoA j := by
          intro j
          unfold sectorOfIdx
          by_cases hj : j < DID_LIMIT
          · rw [if_pos hj, if_pos hj, hAV1]
          · rw [if_neg hj, if_neg hj]
        have hcblen : cb.length = chunk := by
          rw [hcb, List.length_take, List.length_drop]
          omega
        have hstore1u : ∀ p, p < chunk →
            fs1.store u (sofs + p) = cb.getD p 0 := by
          intro p hp
          rw [hfs1]
          show writeBytes fsA.store u sofs cb u (sofs + p) = cb.getD p 0
          rw [writeBytes_in _ _ _ _ _ (by omega) (by rw [hcblen]; omega)]
          congr 1
          omega
        have hstore1ne : ∀ σ o, σ ≠ u → fs1.store σ o = fsA.store σ o := by
          intro σ o hne
          rw [hfs1]
          show writeBytes fsA.store u sofs cb σ o = fsA.store σ o
          exact writeBytes_notin _ _ _ _ _ _ (by tauto)
        have hcbget : ∀ p, p < chunk →
            cb.getD p 0 = buffer.getD (bw + p) 0 := by
          intro p hp
          rw [hcb]
          exact getD_drop_take buffer bw chunk p hp
        have hσne : ∀ j σ, j ≠ k0 → sectorOfIdx fs ino j = some σ →
            σ ≠ u := by
          intro j σ hj hσ he
          have hjD := sectorOfIdx_some_lt fs ino hσ
          have h1' := hpresA j σ hj hσ
          have hAVj : addrVal fsA inoA (leafAddr j) = some σ := by
            unfold sectorOfIdx at h1'
            rw [if_pos hjD] at h1'
            exact h1'
          exact leafAddr_inj j k0 hjD hkD hj
            (hWFA.inj _ _ σ hAVj (by rw [he]; exact hAVmapA))
        have hpres1 : ∀ j σ, j ≠ k0 → sectorOfIdx fs ino j = some σ →
            sectorOfIdx fs1 inoA j = some σ ∧
            ∀ o, fs1.store σ o = fs.store σ o := by
          intro j σ hj hσ
          refine ⟨by rw [hmapSI1]; exact hpresA j σ hj hσ, fun o => ?_⟩
          rw [hstore1ne σ o (hσne j σ hj hσ)]
          exact hdataA j σ hj hσ o
        have hchunk1bytes : ∀ p, p < chunk →
            fs1.store u (sofs + p) = buffer.getD (bw + p) 0 := by
          intro p hp
          rw [hstore1u p hp]
          exact hcbget p hp
        have hfree1 : 3 * (size - chunk) ≤ freeBits fs1 := by
          have he1 : freeBits fs1 = freeBits fsA :=
            freeBits_congr fsA fs1 rfl rfl
          omega
        have tail : ∀ fsB inoB, WF fsB inoB R →
            inoB.inumber = ino.inumber →
            inoB.data.length = max ino.data.length (offset + chunk) →
            sectorOfIdx fsB inoB k0 = some u →
            (∀ j σ, j ≠ k0 → sectorOfIdx fs ino j = some σ →
              sectorOfIdx fsB inoB j = some σ ∧
              ∀ o, fsB.store σ o = fs.store σ o) →
            (∀ p, p < chunk →
              fsB.store u (sofs + p) = buffer.getD (bw + p) 0) →
            3 * (size - chunk) ≤ freeBits fsB →
            WritePost fs ino buffer size offset bw R
              (inode_write_at_loop fuel fsB inoB buffer (size - chunk)
                (offset + chunk) (bw + chunk)) := by
          intro fsB inoB hWFB hinumB hlenB hmapB hpresB hchunkB hfreeB
          have hih := ih fsB inoB buffer (size - chunk) (offset + chunk)
            (bw + chunk) R hWFB (by omega) (by omega) (by omega) hfreeB
          unfold WritePost at hih
          obtain ⟨hres1, hresWF, hresinum, hres0, hreslen, hrespres,
            hrescont⟩ := hih
          unfold WritePost
          refine ⟨?_, hresWF, ?_, ?_, ?_, ?_, ?_⟩
          · rw [hres1]
            omega
          · rw [hresinum, hinumB]
          · intro h
            exact absurd h hs0
          · intro _
            by_cases hz : size - chunk = 0
            · rw [(hres0 hz).2, hlenB]
              omega
            · rw [hreslen (by omega), hlenB]
              omega
          · intro j σ hj hσ
            have hj' : j ≠ k0 := by
              rw [← hk0] at hj
              omega
            have hjlt : j < (offset + chunk) / BLOCK_SECTOR_SIZE := by
              rw [← hk0] at hj
              have hle : k0 ≤ (offset + chunk) / BLOCK_SECTOR_SIZE := by
                rw [hk0]
                exact Nat.div_le_div_right (by omega)
              omega
            obtain ⟨hm, hd⟩ := hpresB j σ hj' hσ
            obtain ⟨hm2, hd2⟩ := hrespres j σ hjlt hm
            exact ⟨hm2, fun o => by rw [hd2 o, hd o]⟩
          · intro p hp
            by_cases hpc : p < chunk
            · have hpw : p < BLOCK_SECTOR_SIZE - sofs := by
                have hmle : chunk ≤ BLOCK_SECTOR_SIZE - sofs := by
                  rw [hchunk]
                  exact Nat.min_le_right _ _
                omega
              have hidx : (offset + p) / BLOCK_SECTOR_SIZE = k0 := by
                rw [hk0]
                rw [hsofs, bss_eq] at hpw
                rw [bss_eq]
                omega
              have hmod : (offset + p) % BLOCK_SECTOR_SIZE = sofs + p := by
                rw [hsofs]
                rw [hsofs, bss_eq] at hpw
                rw [bss_eq]
                omega
              have hmapres :
                  sectorOfIdx (inode_write_at_loop fuel fsB inoB buffer
                      (size - chunk) (offset + chunk) (bw + chunk)).2.1
                    (inode_write_at_loop fuel fsB inoB buffer
                      (size - chunk) (offset + chunk) (bw + chunk)).2.2 k0
                    = some u ∧
                  ∀ o, (inode_write_at_loop fuel fsB inoB buffer
                      (size - chunk) (offset + chunk)
                      (bw + chunk)).2.1.store u o = fsB.store u o := by
                by_cases hz : size - chunk = 0
                · rw [(hres0 hz).1, (hres0 hz).2]
                  exact ⟨hmapB, fun o => rfl⟩
                · have hcs : chunk = BLOCK_SECTOR_SIZE - sofs := by
                    rw [hchunk]
                    rw [hchunk] at hz
                    omega
                  have hklt : k0 < (offset + chunk) / BLOCK_SECTOR_SIZE := by
                    rw [hk0, hcs, hsofs, bss_eq]
                    have : 0 < offset % 512 ∨ offset % 512 = 0 := by omega
                    omega
                  exact hrespres k0 u hklt hmapB
              refine ⟨u, ?_, ?_⟩
              · rw [hidx]
                exact hmapres.1
              · rw [hmod, hmapres.2 (sofs + p)]
                exact hchunkB p hpc
            · have hq : p - chunk < size - chunk := by omega
              obtain ⟨σp, hm, hd⟩ := hrescont (p - chunk) hq
              refine ⟨σp, ?_, ?_⟩
              · rw [show offset + p = offset + chunk + (p - chunk) from
                  by omega]
                exact hm
              · rw [show offset + p = offset + chunk + (p - chunk) from
                  by omega,
                  show bw + p = bw + chunk + (p - chunk) from by omega]
                exact hd
        have hloopeq : inode_write_at_loop (fuel + 1) fs ino buffer size
            offset bw
            = if offset + chunk > inoA.data.length then
                inode_write_at_loop fuel
                  (inode_write_to_table fs1 inoA.inumber
                    { inoA.data with length := offset + chunk })
                  { inoA with data :=
                      { inoA.data with length := offset + chunk } }
                  buffer (size - chunk) (offset + chunk) (bw + chunk)
              else
                inode_write_at_loop fuel fs1 inoA buffer (size - chunk)
                  (offset + chunk) (bw + chunk) := by
          simp only [inode_write_at_loop]
          rw [if_neg hs0]
          rw [hr]
          all_goals rfl
        by_cases hb : offset + chunk > inoA.data.length
        · rw [hloopeq, if_pos hb]
          rw [hlenA] at hb
          have hAVB0 := addrVal_arr_congr fs1 inoA
            { inoA with data := { inoA.data with length := offset + chunk } }
            rfl
          have hWF1B : WF fs1
              { inoA with data :=
                { inoA.data with length := offset + chunk } } R :=
            WF_of_addrVal_eq fs1 fs1 inoA _ R hWF1 hAVB0 (fun i h => h)
              hWF1.bitcnt_le rfl
          obtain ⟨hWFB, hAVt, hstoret, hfmt, hbitt⟩ :=
            inode_write_to_table_spec fs1
              { inoA with data :=
                { inoA.data with length := offset + chunk } } R hWF1B
              inoA.inumber (by rw [hinumA]; exact hWF.inum_lt)
              { inoA.data with length := offset + chunk }
          refine tail _ _ hWFB hinumA ?_ ?_ ?_ ?_ ?_
          · show offset + chunk = max ino.data.length (offset + chunk)
            omega
          · unfold sectorOfIdx
            rw [if_pos hkD, hAVt, hAVB0, hAV1]
            exact hAVmapA
          · intro j σ hj hσ
            have hjD := sectorOfIdx_some_lt fs ino hσ
            have hσR : R ≤ σ := (live_of_sectorOfIdx fs ino R j σ hWF hσ).1
            obtain ⟨hm, hd⟩ := hpres1 j σ hj hσ
            refine ⟨?_, fun o => ?_⟩
            · unfold sectorOfIdx
              rw [if_pos hjD, hAVt, hAVB0]
              unfold sectorOfIdx at hm
              rw [if_pos hjD] at hm
              exact hm
            · rw [hstoret σ o hσR]
              exact hd o
          · intro p hp
            rw [hstoret u _ hRu]
            exact hchunk1bytes p hp
          · have he2 := freeBits_congr fs1 _ hfmt hbitt
            omega
        · rw [hloopeq, if_neg hb]
          rw [hlenA] at hb
          refine tail fs1 inoA hWF1 hinumA ?_
            (by rw [hmapSI1]; exact hmapA) hpres1 hchunk1bytes hfree1
          rw [hlenA]
          omega

/-- The chunk size computed by inode_read_at_loop's signed arithmetic:
    positive, and equal to the distance to the end of the sector, capped
    by the remaining size, whenever the window is inside the length. -/
theorem read_chunk_eq (L O S : Nat) (h1 : 1 ≤ S) (h2 : O + S ≤ L) :
    let sector_ofs := O % BLOCK_SECTOR_SIZE
    let inode_left : Int := (L : Int) - (O : Int)
    let sector_left : Int := (BLOCK_SECTOR_SIZE : Int) - (sector_ofs : Int)
    let min_left : Int := if inode_left < sector_left then inode_left
                          else sector_left
    let chunk_size : Int := if (S : Int) < min_left then (S : Int)
                            else min_left
    ¬ chunk_size ≤ 0 ∧
      chunk_size.toNat = min S (BLOCK_SECTOR_SIZE - sector_ofs) := by
  dsimp only
  rw [bss_eq]
  constructor
  · split_ifs <;> omega
  · split_ifs <;> omega

/-- The read loop returns exactly the stored bytes of the window: if every
    index of [offset, offset+size) is mapped and the mapped sectors hold
    the bytes g, the loop appends exactly those bytes. -/
theorem inode_read_at_loop_spec (fuel : Nat) :
    ∀ fs ino size offset acc R (g : Nat → Nat),
    WF fs ino R → size ≤ fuel →
    offset + size ≤ ino.data.length →
    (∀ p, p < size → ∃ σ,
      sectorOfIdx fs ino ((offset + p) / BLOCK_SECTOR_SIZE) = some σ ∧
      fs.store σ ((offset + p) % BLOCK_SECTOR_SIZE) = g (offset + p)) →
    (inode_read_at_loop fuel fs ino size offset acc).1
      = acc ++ (List.range size).map (fun p => g (offset + p)) := by
  induction fuel with
  | zero =>
      intro fs ino size offset acc R g hWF hsz hlen H
      have hs0 : size = 0 := Nat.le_zero.mp hsz
      subst hs0
      simp [inode_read_at_loop]
  | succ fuel ih =>
      intro fs ino size offset acc R g hWF hsz hlen H
      by_cases hs0 : size = 0
      · subst hs0
        simp [inode_read_at_loop]
      · obtain ⟨σ0, hm0, hv0⟩ := H 0 (by omega)
        rw [Nat.add_zero] at hm0 hv0
        have hkD : offset / BLOCK_SECTOR_SIZE < DID_LIMIT :=
          sectorOfIdx_some_lt fs ino hm0
        have hpure := byte_to_sector_pure fs ino offset σ0 hm0
        obtain ⟨hWF', hAVt, hstoret, hfmt, hbitt⟩ :=
          inode_write_to_table_spec fs ino R hWF ino.inumber
            hWF.inum_lt ino.data
        have hσ0R : R ≤ σ0 := (live_of_sectorOfIdx fs ino R _ σ0 hWF hm0).1
        have hck := read_chunk_eq ino.data.length offset size (by omega) hlen
        dsimp only at hck
        obtain ⟨hpos, htoNat⟩ := hck
        set m := min size (BLOCK_SECTOR_SIZE - offset % BLOCK_SECTOR_SIZE)
          with hm
        have hm1 : 1 ≤ m := by
          rw [hm]
          have : offset % BLOCK_SECTOR_SIZE < BLOCK_SECTOR_SIZE :=
            Nat.mod_lt _ (by rw [bss_eq]; omega)
          omega
        have hmle : m ≤ size := by
          rw [hm]
          exact Nat.min_le_left _ _
        have hmw : m ≤ BLOCK_SECTOR_SIZE - offset % BLOCK_SECTOR_SIZE := by
          rw [hm]
          exact Nat.min_le_right _ _
        have hmapSI' : ∀ j, sectorOfIdx
            (inode_write_to_table fs ino.inumber ino.data) ino j
            = sectorOfIdx fs ino j := by
          intro j
          unfold sectorOfIdx
          by_cases hj : j < DID_LIMIT
          · rw [if_pos hj, if_pos hj, hAVt]
          · rw [if_neg hj, if_neg hj]
        have hH' : ∀ p, p < size - m → ∃ σ,
            sectorOfIdx (inode_write_to_table fs ino.inumber ino.data) ino
              ((offset + m + p) / BLOCK_SECTOR_SIZE) = some σ ∧
            (inode_write_to_table fs ino.inumber ino.data).store σ
              ((offset + m + p) % BLOCK_SECTOR_SIZE)
              = g (offset + m + p) := by
          intro p hp
          obtain ⟨σ, hmp, hvp⟩ := H (m + p) (by omega)
          refine ⟨σ, ?_, ?_⟩
          · rw [hmapSI']
            rw [show offset + m + p = offset + (m + p) from by omega]
            exact hmp
          · have hσR : R ≤ σ :=
              (live_of_sectorOfIdx fs ino R _ σ hWF hmp).1
            rw [hstoret σ _ hσR]
            rw [show offset + m + p = offset + (m + p) from by omega]
            exact hvp
        have hidxp : ∀ i, i < m →
            (offset + i) / BLOCK_SECTOR_SIZE = offset / BLOCK_SECTOR_SIZE ∧
            (offset + i) % BLOCK_SECTOR_SIZE
              = offset % BLOCK_SECTOR_SIZE + i := by
          intro i hi
          have hiw : i < BLOCK_SECTOR_SIZE - offset % BLOCK_SECTOR_SIZE :=
            by omega
          rw [bss_eq] at hiw ⊢
          omega
        have hbytes : readBytes
            (inode_write_to_table fs ino.inumber ino.data).store σ0
            (offset % BLOCK_SECTOR_SIZE) m
            = (List.range m).map (fun p => g (offset + p)) := by
          unfold readBytes
          apply List.map_congr_left
          intro i hi
          rw [List.mem_range] at hi
          obtain ⟨σi, hmi, hvi⟩ := H i (by omega)
          rw [(hidxp i hi).1, hm0] at hmi
          injection hmi with hσ
          rw [hstoret σ0 _ hσ0R, hσ]
          rw [(hidxp i hi).2] at hvi
          exact hvi
        simp only [inode_read_at_loop]
        rw [if_neg hs0, if_neg hpos, htoNat, hpure]
        dsimp only
        rw [ih (inode_write_to_table fs ino.inumber ino.data) ino
          (size - m) (offset + m) _ R g hWF' (by omega) (by omega) hH']
        show acc ++ readBytes
            (inode_write_to_table fs ino.inumber ino.data).store σ0
            (offset % BLOCK_SECTOR_SIZE) m
            ++ (List.range (size - m)).map (fun p => g (offset + m + p))
          = acc ++ (List.range size).map (fun p => g (offset + p))
        rw [hbytes, List.append_assoc]
        congr 1
        conv_rhs => rw [show size = m + (size - m) from by omega]
        rw [List.range_add, List.map_append, List.map_map]
        congr 1
        apply List.map_congr_left
        intro x hx
        simp only [Function.comp]
        congr 1
        omega

/-- The list of bytes inode_read_at returns is the read loop's list; the
    read-ahead tail only touches the cache state. -/
theorem inode_read_at_list (fs2 : FS) (ino2 : Inode) (sz ofs2 : Nat) :
    (inode_read_at fs2 ino2 sz ofs2).2.1
      = (inode_read_at_loop (sz + 1) fs2 ino2 sz ofs2 []).1 := by
  unfold inode_read_at
  dsimp only
  split <;> rfl

/-- C2: for every open inode with writes allowed, buffer, and offset with
    the window inside DID_LIMIT sectors, given three free sectors per byte,
    inode_write_at writes the whole buffer and an inode_read_at of the same
    window returns exactly the bytes written. -/
theorem inode_write_then_read (fs : FS) (ino : Inode) (buffer : List Nat)
    (ofs R : Nat) (hWF : WF fs ino R)
    (hdeny : ino.deny_write_cnt = 0)
    (hofs : ofs + buffer.length ≤ DID_LIMIT * BLOCK_SECTOR_SIZE)
    (hfree : 3 * buffer.length ≤ freeBits fs) :
    (inode_write_at fs ino buffer buffer.length ofs).1 = buffer.length ∧
    (inode_read_at (inode_write_at fs ino buffer buffer.length ofs).2.1
        (inode_write_at fs ino buffer buffer.length ofs).2.2
        buffer.length ofs).2.1 = buffer := by
  have hdeny' : ¬ ino.deny_write_cnt ≠ 0 := fun h => h hdeny
  unfold inode_write_at
  rw [if_neg hdeny']
  by_cases hnil : buffer = []
  · subst hnil
    constructor
    · simp [inode_write_at_loop]
    · rw [inode_read_at_list]
      simp [inode_write_at_loop, inode_read_at_loop]
  · have hpos : 0 < buffer.length := List.length_pos.mpr hnil
    have hpost := inode_write_at_loop_spec (buffer.length + 1) fs ino buffer
      buffer.length ofs 0 R hWF (by omega) hofs (by omega) hfree
    unfold WritePost at hpost
    obtain ⟨h1, hWFW, hinumW, h0, hlenW, hpresW, hcontW⟩ := hpost
    constructor
    · rw [h1]
      omega
    · rw [inode_read_at_list]
      have hH : ∀ p, p < buffer.length → ∃ σ,
          sectorOfIdx
            (inode_write_at_loop (buffer.length + 1) fs ino buffer
              buffer.length ofs 0).2.1
            (inode_write_at_loop (buffer.length + 1) fs ino buffer
              buffer.length ofs 0).2.2
            ((ofs + p) / BLOCK_SECTOR_SIZE) = some σ ∧
          (inode_write_at_loop (buffer.length + 1) fs ino buffer
              buffer.length ofs 0).2.1.store σ
            ((ofs + p) % BLOCK_SECTOR_SIZE)
            = buffer.getD (ofs + p - ofs) 0 := by
        intro p hp
        obtain ⟨σp, hm, hd⟩ := hcontW p hp
        refine ⟨σp, hm, ?_⟩
        rw [show ofs + p - ofs = p from by omega, hd, Nat.zero_add]
      rw [inode_read_at_loop_spec (buffer.length + 1) _ _ buffer.length ofs
        [] R (fun a => buffer.getD (a - ofs) 0) hWFW (by omega)
        (by rw [hlenW hpos]; omega) hH]
      rw [List.nil_append]
      apply List.ext_getElem
      · rw [List.length_map, List.length_range]
      · intro i h1' h2'
        rw [List.getElem_map, List.getElem_range]
        rw [show ofs + i - ofs = i from by omega]
        exact List.getD_eq_getElem buffer 0 h2'

/-- C3 amended: a read of a window inside a single unmapped (hole) sector
    below the length returns zero bytes, but byte_to_sector allocates on
    reads: in the state inode_read_at returns, the hole's index is mapped
    to a backing sector, so the pointer has not remained 0. -/
theorem inode_read_at_hole (fs : FS) (ino : Inode) (R n ofs : Nat)
    (hWF : WF fs ino R) (hfree : 6 ≤ freeBits fs)
    (hn : 1 ≤ n)
    (hhole : sectorOfIdx fs ino (ofs / BLOCK_SECTOR_SIZE) = none)
    (hwin : ofs % BLOCK_SECTOR_SIZE + n ≤ BLOCK_SECTOR_SIZE)
    (hlen : ofs + n ≤ ino.data.length)
    (hlenD : ino.data.length ≤ DID_LIMIT * BLOCK_SECTOR_SIZE) :
    (inode_read_at fs ino n ofs).2.1 = List.replicate n 0 ∧
    ∃ u2, sectorOfIdx (inode_read_at fs ino n ofs).2.2.1
      (inode_read_at fs ino n ofs).2.2.2 (ofs / BLOCK_SECTOR_SIZE)
      = some u2 := by
  have hkD : ofs / BLOCK_SECTOR_SIZE < DID_LIMIT := by
    rw [bss_eq, did_limit_eq]
    rw [bss_eq, did_limit_eq] at hlenD
    omega
  have hstep := byte_to_sector_spec fs ino R ofs hWF (by omega) hkD
  rcases hr : byte_to_sector fs ino ofs with ⟨u, fsA, inoA⟩
  rw [hr] at hstep
  unfold StepOK at hstep
  dsimp only at hstep
  obtain ⟨hWFA, hmapA, hpresA, hdataA, hlenA, hinumA, hdenyA, hbitA,
    hfbA, hmkA, hzeroA⟩ := hstep
  have hzero := hzeroA hhole
  have hck := read_chunk_eq ino.data.length ofs n hn (by omega)
  dsimp only at hck
  obtain ⟨hposc, htoNat⟩ := hck
  have hminn : min n (BLOCK_SECTOR_SIZE - ofs % BLOCK_SECTOR_SIZE) = n :=
    Nat.min_eq_left (by omega)
  rw [hminn] at htoNat
  have hbytes : cache_sector_read fsA u n (ofs % BLOCK_SECTOR_SIZE)
      = List.replicate n 0 := by
    rw [List.eq_replicate_iff]
    refine ⟨readBytes_length _ _ _ _, ?_⟩
    intro b hb
    unfold cache_sector_read readBytes at hb
    obtain ⟨i, hi, hbi⟩ := List.mem_map.mp hb
    rw [← hbi]
    exact hzero _
  have hloopz : ∀ fl fs2 ino2 ofs2 acc2,
      inode_read_at_loop fl fs2 ino2 0 ofs2 acc2 = (acc2, fs2, ino2) := by
    intro fl fs2 ino2 ofs2 acc2
    cases fl <;> simp [inode_read_at_loop]
  have hloopres : inode_read_at_loop (n + 1) fs ino n ofs []
      = (List.replicate n 0, fsA, inoA) := by
    simp only [inode_read_at_loop]
    rw [if_neg (by omega), if_neg hposc, htoNat, hr]
    dsimp only
    rw [Nat.sub_self, hloopz, hbytes, List.nil_append]
  unfold inode_read_at
  dsimp only
  rw [hloopres]
  dsimp only
  rw [List.length_replicate]
  by_cases hra : ofs + n - (ofs + n) % BLOCK_SECTOR_SIZE
      < inoA.data.length
  · rw [if_pos hra]
    have hkD2 : (ofs + n - (ofs + n) % BLOCK_SECTOR_SIZE)
        / BLOCK_SECTOR_SIZE < DID_LIMIT := by
      rw [hlenA] at hra
      rw [bss_eq, did_limit_eq]
      rw [bss_eq, did_limit_eq] at hlenD
      rw [bss_eq] at hra
      omega
    have hstep2 := byte_to_sector_spec fsA inoA R
      (ofs + n - (ofs + n) % BLOCK_SECTOR_SIZE) hWFA (by omega) hkD2
    rcases hr2 : byte_to_sector fsA inoA
        (ofs + n - (ofs + n) % BLOCK_SECTOR_SIZE) with ⟨u2, fsB, inoB⟩
    rw [hr2] at hstep2
    unfold StepOK at hstep2
    dsimp only at hstep2
    obtain ⟨hWFB, hmapB, hpresB, hdataB, hlenB, hinumB, hdenyB, hbitB,
      hfbB, hmkB, hzeroB⟩ := hstep2
    refine ⟨rfl, ?_⟩
    by_cases hkk : ofs / BLOCK_SECTOR_SIZE
        = (ofs + n - (ofs + n) % BLOCK_SECTOR_SIZE) / BLOCK_SECTOR_SIZE
    · exact ⟨u2, by rw [hkk]; exact hmapB⟩
    · exact ⟨u, hpresB _ u hkk hmapA⟩
  · rw [if_neg hra]
    exact ⟨rfl, u, hmapA⟩

/-- Every address of a hole-only inode is unmapped. -/
theorem addrVal_blank (fs : FS) (ino : Inode)
    (h : ∀ w, ino.data.arr w = 0) :
    ∀ a, addrVal fs ino a = none := by
  intro a
  cases a <;> simp [addrVal, h, nz]

/-- The blank state is well formed with a 100-sector reserved region. -/
theorem WF_blank (len : Nat) : WF fsBlank (inoBlank len) 100 := by
  have hAV := addrVal_blank fsBlank (inoBlank len) (fun w => rfl)
  refine ⟨?_, ?_, ?_, ?_, ?_, ?_⟩
  · rw [its_eq]
  · intro i hi
    show decide (i < 100) = true
    simpa using hi
  · intro a v h
    rw [hAV] at h
    cases h
  · intro a b v h1 h2
    rw [hAV] at h1
    cases h1
  · show (200 : Nat) ≤ 2 ^ 32
    norm_num
  · show 0 < INODE_TABLE_SECTORS * INODES_PER_SECTOR
    rw [its_eq, ips_eq]
    omega

/-- Witness for the round trip: on the blank state, writing the byte 7 at
    offset 0 reports one byte written and reading it back returns [7]. -/
theorem inode_write_then_read_witness :
    (inode_write_at fsBlank (inoBlank 0) [7] (List.length [7]) 0).1
        = List.length [7] ∧
    (inode_read_at (inode_write_at fsBlank (inoBlank 0) [7]
        (List.length [7]) 0).2.1
      (inode_write_at fsBlank (inoBlank 0) [7] (List.length [7]) 0).2.2
      (List.length [7]) 0).2.1 = [7] :=
  inode_write_then_read fsBlank (inoBlank 0) [7] 0 100 (WF_blank 0) rfl
    (by decide) (by decide)

/-- Witness for the hole read: a 512-byte file whose single sector is a
    hole reads back 512 zero bytes, and the returned state has allocated a
    backing sector for index 0. -/
theorem inode_read_at_hole_witness :
    sectorOfIdx fsBlank (inoBlank 512) 0 = none ∧
    ((inode_read_at fsBlank (inoBlank 512) 512 0).2.1
        = List.replicate 512 0 ∧
      ∃ u2, sectorOfIdx (inode_read_at fsBlank (inoBlank 512) 512 0).2.2.1
        (inode_read_at fsBlank (inoBlank 512) 512 0).2.2.2 0
        = some u2) :=
  ⟨by decide, inode_read_at_hole fsBlank (inoBlank 512) 100 512 0
    (WF_blank 512) (by decide) (by decide) (by decide) (by decide)
    (by decide) (by decide)⟩
